import Mathlib

/-!
A formal model of the forward stepwise regression engine of
`webviz_subsurface/plugins/_multiple_regression.py`, together with theorems
about `gen_model`, `_gen_interaction_df`, `forward_selected` and
`_model_warnings`.

Modelling conventions:
* numbers are exact rationals (`ℚ`);
* a pandas `DataFrame` is an ordered association list of named numeric
  columns;
* `numpy.linalg.inv` is modelled as exact matrix inversion, failing (i.e.
  raising `LinAlgError`) precisely on matrices with zero determinant;
* Python `set` iteration order is unspecified, so the model threads the
  iteration order of the `remaining` set through as an explicit list
  parameter, and models `list(set(..).difference(..))` as first-occurrence
  order;
* the unbounded `while` loop of `forward_selected` is modelled with a fuel
  parameter (`RunOut.fuelOut` marks fuel exhaustion);
* the external `statsmodels` OLS fit of `_model_warnings` is modelled as an
  oracle returning one of the four outcomes its call site distinguishes.
-/

/-- Python `s.split(sep)` for a one-character separator, over `List Char`.
The result is always non-empty (`"".split(sep) == [""]` in Python). -/
def splitCharList (sep : Char) : List Char → List (List Char)
  | [] => [[]]
  | c :: cs =>
    if c = sep then [] :: splitCharList sep cs
    else
      match splitCharList sep cs with
      | [] => [[c]]
      | h :: t => (c :: h) :: t

/-- Python `candidate.split("*")`. -/
def splitStar (s : String) : List String :=
  (splitCharList '*' s.toList).map String.mk

/-- Python `"*" in candidate`. -/
def hasStar (s : String) : Bool := s.toList.contains '*'

/-- Python `"*".join(parts)`, over `List Char`. -/
def joinCharList : List (List Char) → List Char
  | [] => []
  | [h] => h
  | h :: t => h ++ '*' :: joinCharList t

/-- Python `"*".join(parts)`. -/
def joinStar (parts : List String) : String :=
  String.mk (joinCharList (parts.map String.toList))

/-- One numeric column of a dataframe. -/
abbrev Col := List ℚ

/-- A pandas `DataFrame`: named numeric columns in order. -/
abbrev DataFrame := List (String × Col)

def dfColumns (df : DataFrame) : List String := df.map (·.1)

def dfLookup (df : DataFrame) (nm : String) : Option Col :=
  (df.find? (fun p => p.1 == nm)).map (·.2)

/-- pandas `df.filter(items=l)`: the named columns that exist, in the order
of `l` (names not present are silently dropped). -/
def dfFilter (df : DataFrame) (items : List String) : DataFrame :=
  items.filterMap (fun nm => (dfLookup df nm).map (fun c => (nm, c)))

/-- pandas `df.drop(columns=nm)`. -/
def dfDrop (df : DataFrame) (nm : String) : DataFrame :=
  df.filter (fun p => !(p.1 == nm))

/-- pandas column assignment `df[nm] = col`: overwrite an existing column in
place, otherwise append a new column at the end. -/
def dfAssign (df : DataFrame) (nm : String) (col : Col) : DataFrame :=
  if df.any (fun p => p.1 == nm) then
    df.map (fun p => if p.1 == nm then (nm, col) else p)
  else df ++ [(nm, col)]

/-- The number of rows of a dataframe (length of its first column). -/
def dfNRows (df : DataFrame) : Nat :=
  match df with
  | [] => 0
  | c :: _ => c.2.length

/-- pandas `df.product(axis=1)`: the rowwise product of all columns (the
empty product is 1). -/
def dfProductAxis1 (df : DataFrame) (n : Nat) : Col :=
  (List.range n).map (fun r => (df.map (fun p => p.2.getD r 0)).foldl (· * ·) 1)

/-- `itertools.combinations(l, k)`, in its enumeration order. -/
def combinations : Nat → List α → List (List α)
  | 0, _ => [[]]
  | _ + 1, [] => []
  | k + 1, x :: xs => (combinations k xs).map (x :: ·) ++ combinations (k + 1) xs

/-- `_gen_interaction_df(df, response, degree)`: for every size
`i ∈ range(1, degree+1)` and every combination of `i` non-response columns,
assign `newdf[name] = newdf.filter(items=name.split("*")).product(axis=1)`
where `name` joins the combination with `"*"`.  (The source guards each
assignment with `if name.split("*"):`, which is always true since Python's
`split` never returns an empty list.) -/
def gen_interaction_df (df : DataFrame) (response : String) (degree : Nat) : DataFrame :=
  ((List.range' 1 degree).flatMap
      (fun i => (combinations i (dfColumns (dfDrop df response))).map joinStar)).foldl
    (fun acc nm =>
      dfAssign acc nm (dfProductAxis1 (dfFilter acc (splitStar nm)) (dfNRows acc)))
    df

/-- Dot product of two equal-length rational vectors. -/
def dotL (a b : List ℚ) : ℚ := (a.zip b).foldl (fun s p => s + p.1 * p.2) 0

/-- Matrix–vector product, matrix given as a list of rows. -/
def matVecL (m : List (List ℚ)) (v : List ℚ) : List ℚ := m.map (fun row => dotL row v)

/-- Determinant by Laplace expansion along the first row, with the matrix
size as structural fuel. -/
def detSized : Nat → List (List ℚ) → ℚ
  | _, [] => 1
  | 0, _ :: _ => 0
  | k + 1, r :: rest =>
    (List.range r.length).foldl
      (fun acc j =>
        acc + (-1 : ℚ) ^ j * r.getD j 0 * detSized k (rest.map (fun row => row.eraseIdx j)))
      0

def detL (m : List (List ℚ)) : ℚ := detSized m.length m

def minorL (m : List (List ℚ)) (i j : Nat) : List (List ℚ) :=
  (m.eraseIdx i).map (fun row => row.eraseIdx j)

/-- `numpy.linalg.inv`, exactly: `none` iff the matrix is singular, the
condition under which numpy raises `LinAlgError`; otherwise the adjugate
divided by the determinant. -/
def invL (m : List (List ℚ)) : Option (List (List ℚ)) :=
  let d := detL m
  if d = 0 then none
  else
    some ((List.range m.length).map (fun i =>
      (List.range m.length).map (fun j => (-1 : ℚ) ^ (i + j) * detL (minorL m j i) / d)))

/-- The Gram matrix `XᵀX` for a design matrix given as a list of columns. -/
def xtxL (cols : List Col) : List (List ℚ) :=
  cols.map (fun ci => cols.map (fun cj => dotL ci cj))

def sumL (l : List ℚ) : ℚ := l.foldl (· + ·) 0

/-- The values `forward_selected` computes before its loop:
`y`, `n = len(y)`, `y_mean = np.mean(y)` and `SST = np.sum((y-y_mean)**2)`,
plus the inputs `data` and `maxvars`. -/
structure FSConfig where
  data : DataFrame
  maxvars : Nat
  n : Nat
  y : Col
  yMean : ℚ
  SST : ℚ
deriving DecidableEq

def mkConfig (data : DataFrame) (response : String) (maxvars : Nat) : FSConfig :=
  let y := (dfLookup data response).getD []
  let n := y.length
  let ym := sumL y / (n : ℚ)
  { data := data, maxvars := maxvars, n := n, y := y, yMean := ym,
    SST := sumL (y.map (fun v => (v - ym) ^ 2)) }

/-- The `current_model` list built per candidate: for an interaction term,
`selected + [candidate] + list(set(candidate.split("*")).difference(set(selected)))`
(the incidental set order is modelled as first-occurrence order). -/
def currentModel (selected : List String) (c : String) : List String :=
  if hasStar c then
    selected ++ [c] ++ ((splitStar c).dedup.filter (fun b => !(selected.contains b)))
  else selected ++ [c]

/-- `p = X.shape[1]` before the intercept column is appended: the number of
columns `data.filter(items=current_model)` actually found. -/
def pCand (cfg : FSConfig) (selected : List String) (c : String) : Nat :=
  (dfFilter cfg.data (currentModel selected c)).length

/-- The design matrix columns including the appended intercept column of
ones (`np.append(X, np.ones((len(y), 1)), axis=1)`). -/
def xCand (cfg : FSConfig) (selected : List String) (c : String) : List Col :=
  ((dfFilter cfg.data (currentModel selected c)).map (·.2)) ++ [List.replicate cfg.n (1 : ℚ)]

/-- `f_vec = beta @ X.T`: fitted value at each row. -/
def fittedCand (cfg : FSConfig) (beta : List ℚ) (cols : List Col) : Col :=
  (List.range cfg.n).map (fun i => dotL beta (cols.map (fun c0 => c0.getD i 0)))

/-- `SS_RES = np.sum((f_vec - y_mean) ** 2)` — computed from the fitted
values, not the residuals. -/
def ssresOf (cfg : FSConfig) (fvec : Col) : ℚ :=
  sumL (fvec.map (fun v => (v - cfg.yMean) ^ 2))

/-- Outcome of scoring one candidate inside the loop body: the singular
skip (`except la.LinAlgError: continue`), the degrees-of-freedom early
return, or an adjusted-R² score. -/
inductive CandOut where
  | skip
  | dof
  | scored (r : ℚ)
deriving DecidableEq

/-- `beta = la.inv(X.T @ X) @ X.T @ y`, given the computed inverse `M`. -/
def betaWithInv (cfg : FSConfig) (selected : List String) (c : String)
    (M : List (List ℚ)) : List ℚ :=
  matVecL M ((xCand cfg selected c).map (fun c0 => dotL c0 cfg.y))

/-- `R_2_adj = 1-(1 - (SS_RES / SST))*((n-1)/(n-p-1))`, given the computed
inverse `M` of `XᵀX`. -/
def scoreWithInv (cfg : FSConfig) (selected : List String) (c : String)
    (M : List (List ℚ)) : ℚ :=
  1 - (1 - ssresOf cfg (fittedCand cfg (betaWithInv cfg selected c M) (xCand cfg selected c))
        / cfg.SST) *
    (((cfg.n : ℚ) - 1) / ((cfg.n : ℚ) - (pCand cfg selected c : ℚ) - 1))

/-- The per-candidate body of `forward_selected`'s scoring loop.  Note the
order: the matrix inversion is attempted first (a singular matrix skips the
candidate), and only on success is `n - p - 1 < 1` checked. -/
def fitCandidate (cfg : FSConfig) (selected : List String) (c : String) : CandOut :=
  match invL (xtxL (xCand cfg selected c)) with
  | none => .skip
  | some inv =>
    if (cfg.n : ℤ) - (pCand cfg selected c : ℤ) - 1 < 1 then .dof
    else .scored (scoreWithInv cfg selected c inv)

/-- Result of one full scoring pass over `remaining`: either the
degrees-of-freedom guard fired (an early `return` out of the whole
function), or the list `scores_with_candidates` in iteration order. -/
inductive ScanOut where
  | dofHalt
  | scores (l : List (ℚ × String))
deriving DecidableEq

def scanCandidates (cfg : FSConfig) (selected : List String) : List String → ScanOut
  | [] => .scores []
  | c :: rest =>
    match fitCandidate cfg selected c with
    | .skip => scanCandidates cfg selected rest
    | .dof => .dofHalt
    | .scored r =>
      match scanCandidates cfg selected rest with
      | .dofHalt => .dofHalt
      | .scores l => .scores ((r, c) :: l)

/-- Python `scores_with_candidates.sort(key=lambda x: x[0])`: a stable
ascending sort by score alone.  `List.insertionSort` with the reflexive
relation `a.1 ≤ b.1` is stable and sorts ascending, which determines
Python's sort uniquely. -/
def pySortByScore (l : List (ℚ × String)) : List (ℚ × String) :=
  l.insertionSort (fun a b => a.1 ≤ b.1)

/-- The loop state of `forward_selected`: the `remaining` candidate set (in
its iteration order), the `selected` list (which aliases the caller's
`force_in` list), and the two score variables. -/
structure FSState where
  remaining : List String
  selected : List String
  currentScore : ℚ
  bestNewScore : ℚ
deriving DecidableEq

/-- Result of one iteration of the `while` loop: the early `return` of the
degrees-of-freedom guard, the uncaught `IndexError` of
`scores_with_candidates.pop()` on an empty list, or the next state. -/
inductive RoundOut where
  | halted (sel : List String)
  | crashed
  | next (s : FSState)
deriving DecidableEq

/-- The base-feature pull-in loop of the commit:
`for base_feature in best_candidate.split("*"): ...`. -/
def commitBases (bases : List String) (s : FSState) : FSState :=
  bases.foldl
    (fun st b =>
      { st with
        remaining := if st.remaining.contains b then st.remaining.erase b else st.remaining,
        selected := if st.selected.contains b then st.selected else st.selected ++ [b] })
    s

/-- The commit of a winning candidate: if it is an interaction term, first
pull in its base features (`commitBases`), then remove the winner from
`remaining`, append it to `selected` and set both scores to the winning
score. -/
def commitWinner (s : FSState) (b : ℚ) (c : String) : FSState :=
  let s1 := if hasStar c then commitBases (splitStar c) s else s
  { remaining := s1.remaining.erase c, selected := s1.selected ++ [c],
    currentScore := b, bestNewScore := b }

/-- One iteration of the `while` loop of `forward_selected`. -/
def fsRound (cfg : FSConfig) (s : FSState) : RoundOut :=
  match scanCandidates cfg s.selected s.remaining with
  | .dofHalt => .halted s.selected
  | .scores l =>
    match (pySortByScore l).getLast? with
    | none => .crashed
    | some (b, c) =>
      if s.currentScore < b then .next (commitWinner s b c)
      else .next { s with bestNewScore := b }

/-- Overall result of `forward_selected` at selection granularity: the
selected-predictor list handed to the final `_model_warnings` fit, the
uncaught `IndexError`, or fuel exhaustion (the loop has no own bound). -/
inductive RunOut where
  | model (sel : List String)
  | crash
  | fuelOut
deriving DecidableEq

/-- The `while` loop with its condition
`remaining and current_score == best_new_score and len(selected) < maxvars`. -/
def fsRun (cfg : FSConfig) : Nat → FSState → RunOut
  | 0, _ => .fuelOut
  | fuel + 1, s =>
    if s.remaining ≠ [] ∧ s.currentScore = s.bestNewScore ∧ s.selected.length < cfg.maxvars then
      match fsRound cfg s with
      | .halted sel => .model sel
      | .crashed => .crash
      | .next s' => fsRun cfg fuel s'
    else .model s.selected

/-- The initial state: `selected = force_in` (an alias, not a copy) and
`current_score, best_new_score = 0.0, 0.0`.  `order` is the iteration order
of `remaining = set(data.columns).difference(set(force_in+[response]))`. -/
def initState (forceIn : List String) (order : List String) : FSState :=
  { remaining := order, selected := forceIn, currentScore := 0, bestNewScore := 0 }

/-- `forward_selected(data, response, force_in, maxvars)` at selection
granularity.  On `RunOut.model sel`, the list object the caller passed as
`force_in` has final contents `sel` (the local `selected` aliases it). -/
def forward_selected (data : DataFrame) (response : String) (forceIn : List String)
    (maxvars : Nat) (order : List String) (fuel : Nat) : RunOut :=
  fsRun (mkConfig data response maxvars) fuel (initState forceIn order)

/-- The dataset `gen_model` runs selection on: `interaction_degree` truthy
expands interactions to degree `interaction_degree + 1`, else the data is
used as is. -/
def gen_model_df (df : DataFrame) (response : String) (interactionDegree : Nat) : DataFrame :=
  if interactionDegree ≠ 0 then gen_interaction_df df response (interactionDegree + 1) else df

/-- `gen_model(df, response, max_vars, force_in, interaction_degree)`. -/
def gen_model (df : DataFrame) (response : String) (maxVars : Nat) (forceIn : List String)
    (interactionDegree : Nat) (order : List String) (fuel : Nat) : RunOut :=
  forward_selected (gen_model_df df response interactionDegree) response forceIn maxVars order fuel

/-- The outcomes of the external `sm.OLS(...).fit()` call that
`_model_warnings` distinguishes under its filters
(`error` on `RuntimeWarning`, `ignore` on `UserWarning`): a clean fit, a
fit that only emitted ignored `UserWarning`s, a `RuntimeWarning` elevated
to an error, or any other raised exception. -/
inductive FitOutcome (M : Type) where
  | ok (m : M)
  | userWarning (m : M)
  | runtimeWarning
  | exn
deriving DecidableEq

/-- `_model_warnings(design_matrix)`: runs the OLS fit with warnings
filtered, catches `(Exception, RuntimeWarning)` and returns `None` on any
of them. -/
def model_warnings {M : Type} (fit : DataFrame → FitOutcome M) (designMatrix : DataFrame) :
    Option M :=
  match fit designMatrix with
  | .ok m => some m
  | .userWarning m => some m
  | .runtimeWarning => none
  | .exn => none

/-- The last element attaining the maximal score, in list order: the
element `pop()` returns after the stable ascending sort by score. -/
def lastMax : List (ℚ × String) → Option (ℚ × String)
  | [] => none
  | x :: xs =>
    match lastMax xs with
    | none => some x
    | some z => if x.1 ≤ z.1 then some z else some x

/-- Modelled from the spec: the adjusted-R² formula
`R²_adj = 1 − (1 − SS_res/SST)·(n−1)/(n−p−1)`. -/
def adjR2_spec (n p : Nat) (ssres sst : ℚ) : ℚ :=
  1 - (1 - ssres / sst) * (((n : ℚ) - 1) / ((n : ℚ) - (p : ℚ) - 1))

/-- Lexicographic order on character lists (identity order on names). -/
def charListLe : List Char → List Char → Bool
  | [], _ => true
  | _ :: _, [] => false
  | a :: as, b :: bs => if a = b then charListLe as bs else decide (a < b)

/-- Modelled from the spec: the claimed tie-break, "the last-sorted element
under an ascending sort of (score, candidate-identity)", with candidate
identity ordered lexicographically. -/
def specTieBreakWinner (l : List (ℚ × String)) : Option (ℚ × String) :=
  (l.insertionSort
    (fun a b => a.1 < b.1 ∨ (a.1 = b.1 ∧ charListLe a.2.toList b.2.toList = true))).getLast?

/-! ### Concrete inputs used in the theorems below -/

/-- A dataset whose only candidate column is constant, hence collinear with
the intercept: every scoring round is all-singular. -/
def dataC1 : DataFrame := [("y", [1, 2, 3]), ("x", [1, 1, 1])]

def cfgC1 : FSConfig := mkConfig dataC1 "y" 5

/-- Two duplicate candidate columns, each fitting the response exactly:
their scores tie exactly. -/
def dataC2 : DataFrame := [("y", [1, -1, 0]), ("x1", [1, -1, 0]), ("x2", [1, -1, 0])]

def cfgC2 : FSConfig := mkConfig dataC2 "y" 1

/-- A candidate whose adjusted R² is exactly `0`, the initial current
score: `R²_adj = 1 - (1 - (1/2)/2)·(4/3) = 0`. -/
def dataC3 : DataFrame := [("y", [1, -1, 0, 0, 0]), ("x", [1, 0, -1, 0, 0])]

def cfgC3 : FSConfig := mkConfig dataC3 "y" 5

def stateC3 : FSState := initState [] ["x"]

/-- `n = 4` with an interaction candidate `A*B` whose round model has
`p = 3` columns (`n - p - 1 = 0 < 1`), but whose normal matrix is singular
(`A` and `B` are duplicates and `A*B` is the constant `1`). -/
def dataC4 : DataFrame :=
  [("y", [1, -1, 1, -1]), ("A", [1, -1, 1, -1]), ("B", [1, -1, 1, -1]),
   ("A*B", [1, 1, 1, 1])]

def cfgC4 : FSConfig := mkConfig dataC4 "y" 1

/-- Mutually orthogonal, mean-zero columns with the response equal to
`A*B`: the interaction candidate scores exactly `1` and wins, the base
candidates score `-1/3`. -/
def dataC5 : DataFrame :=
  [("y", [1, -1, -1, 1, 0]), ("A", [1, -1, 1, -1, 0]), ("B", [1, 1, -1, -1, 0]),
   ("A*B", [1, -1, -1, 1, 0])]

def cfgC5 : FSConfig := mkConfig dataC5 "y" 1

/-- First call of the default-`force_in` scenario: `x1` is selected. -/
def dataC10a : DataFrame := [("y", [1, -1, 0]), ("x1", [1, -1, 0])]

/-- Second call of the default-`force_in` scenario: here `x1` is a useless
constant column and `x2` fits the response exactly. -/
def dataC10b : DataFrame :=
  [("y", [1, -1, 0]), ("x1", [1, 1, 1]), ("x2", [1, -1, 0])]

def cfgC10a : FSConfig := mkConfig dataC10a "y" 1

def cfgC10b : FSConfig := mkConfig dataC10b "y" 1

/-- A state on which the degrees-of-freedom guard fires: `n = 3`, one
predictor already selected, and the candidate's `3×3` design is
invertible. -/
def dataC4w : DataFrame := [("y", [1, 2, 3]), ("a", [1, 2, 4]), ("b", [1, 3, 2])]

def cfgC4w : FSConfig := mkConfig dataC4w "y" 5

/-! ### Small evaluation lemmas -/

theorem rangeOne : List.range 1 = [0] := rfl

theorem rangeTwo : List.range 2 = [0, 1] := rfl

theorem rangeThree : List.range 3 = [0, 1, 2] := rfl

theorem rangeFour : List.range 4 = [0, 1, 2, 3] := rfl

theorem rangeFive : List.range 5 = [0, 1, 2, 3, 4] := rfl

theorem invL_of_det_eq_zero {m : List (List ℚ)} (h : detL m = 0) : invL m = none := by
  simp [invL, h]

theorem invL_of_det_ne_zero {m : List (List ℚ)} (h : ¬ detL m = 0) :
    invL m = some ((List.range m.length).map (fun i =>
      (List.range m.length).map (fun j => (-1 : ℚ) ^ (i + j) * detL (minorL m j i) / detL m))) := by
  simp [invL, h]

theorem fsRound_scores {cfg : FSConfig} {s : FSState} {l : List (ℚ × String)}
    (h : scanCandidates cfg s.selected s.remaining = .scores l) :
    fsRound cfg s =
      (match (pySortByScore l).getLast? with
       | none => .crashed
       | some (b, c) =>
         if s.currentScore < b then RoundOut.next (commitWinner s b c)
         else .next { s with bestNewScore := b }) := by
  unfold fsRound
  rw [h]

theorem fitCandidate_of_inv_none {cfg : FSConfig} {sel : List String} {c : String}
    (h : invL (xtxL (xCand cfg sel c)) = none) : fitCandidate cfg sel c = .skip := by
  unfold fitCandidate
  rw [h]

theorem fitCandidate_of_inv_dof {cfg : FSConfig} {sel : List String} {c : String}
    {M : List (List ℚ)} (h : invL (xtxL (xCand cfg sel c)) = some M)
    (h2 : (cfg.n : ℤ) - (pCand cfg sel c : ℤ) - 1 < 1) : fitCandidate cfg sel c = .dof := by
  unfold fitCandidate
  rw [h]
  simp [h2]

theorem fitCandidate_of_inv_scored {cfg : FSConfig} {sel : List String} {c : String}
    {M : List (List ℚ)} (h : invL (xtxL (xCand cfg sel c)) = some M)
    (h2 : ¬ ((cfg.n : ℤ) - (pCand cfg sel c : ℤ) - 1 < 1)) :
    fitCandidate cfg sel c = .scored (scoreWithInv cfg sel c M) := by
  unfold fitCandidate
  rw [h]
  simp [h2]

/-- `cfgC1` evaluated. -/
theorem cfgC1_eval : cfgC1 = ⟨dataC1, 5, 3, [1, 2, 3], 2, 2⟩ := by
  have h : dfLookup dataC1 "y" = some [1, 2, 3] := by decide
  simp only [cfgC1, mkConfig, h, Option.getD_some]
  norm_num [sumL]

theorem xCandC1 : xCand cfgC1 [] "x" = [[1, 1, 1], [1, 1, 1]] := by
  rw [xCand, cfgC1_eval]
  decide

/-- The single candidate of `dataC1` is skipped as singular. -/
theorem fitC1 : fitCandidate cfgC1 [] "x" = .skip := by
  refine fitCandidate_of_inv_none (invL_of_det_eq_zero ?_)
  rw [xCandC1]
  norm_num [xtxL, detL, detSized, dotL, rangeTwo]

/-- `cfgC2` evaluated. -/
theorem cfgC2_eval : cfgC2 = ⟨dataC2, 1, 3, [1, -1, 0], 0, 2⟩ := by
  have h : dfLookup dataC2 "y" = some [1, -1, 0] := by decide
  simp only [cfgC2, mkConfig, h, Option.getD_some]
  norm_num [sumL]

/-- Both duplicate candidates of `dataC2` score exactly `1`. -/
theorem fitC2 (c : String) (hc : c = "x1" ∨ c = "x2") :
    fitCandidate cfgC2 [] c = .scored 1 := by
  have hX : xCand cfgC2 [] c = [[1, -1, 0], [1, 1, 1]] := by
    rcases hc with rfl | rfl <;> (rw [xCand, cfgC2_eval]; decide)
  have hp : pCand cfgC2 [] c = 1 := by
    rcases hc with rfl | rfl <;> (rw [pCand, cfgC2_eval]; decide)
  have hinv : invL (xtxL (xCand cfgC2 [] c)) = some [[1/2, 0], [0, 1/3]] := by
    rw [hX]
    norm_num [xtxL, dotL, invL, detL, detSized, minorL, rangeOne, rangeTwo]
  have hdof : ¬ ((cfgC2.n : ℤ) - (pCand cfgC2 [] c : ℤ) - 1 < 1) := by
    rw [hp, cfgC2_eval]
    norm_num
  rw [fitCandidate_of_inv_scored hinv hdof]
  simp only [CandOut.scored.injEq, scoreWithInv, betaWithInv, hX, hp]
  simp only [cfgC2_eval]
  norm_num [fittedCand, ssresOf, sumL, dotL, matVecL, rangeThree]

theorem mem_of_getLast?_eq {α : Type _} {l : List α} {z : α} (h : l.getLast? = some z) :
    z ∈ l := by
  obtain ⟨hne, hz⟩ := List.mem_getLast?_eq_getLast (l := l) (x := z) (by rw [h]; rfl)
  rw [hz]
  exact List.getLast_mem hne

/-- Where `orderedInsert` leaves the last element of a sorted list: the
inserted element ends up last iff it is `≥` the previous last element. -/
theorem getLast?_orderedInsert (x : ℚ × String) :
    ∀ L : List (ℚ × String), List.Pairwise (fun a b => a.1 ≤ b.1) L →
      (L.orderedInsert (fun a b => a.1 ≤ b.1) x).getLast? =
        (match L.getLast? with
         | none => some x
         | some z => if x.1 ≤ z.1 then some z else some x)
  | [], _ => rfl
  | y :: ys, h => by
    rw [List.orderedInsert]
    rcases List.pairwise_cons.mp h with ⟨hy, hys⟩
    by_cases hxy : x.1 ≤ y.1
    · rw [if_pos hxy, List.getLast?_cons_cons]
      obtain ⟨z, hz⟩ : ∃ z, (y :: ys).getLast? = some z := by
        cases ys <;> exact ⟨_, List.getLast?_eq_getLast_of_ne_nil (by simp)⟩
      rw [hz]
      have hyz : y.1 ≤ z.1 := by
        rcases List.mem_cons.mp (mem_of_getLast?_eq hz) with h1 | h1
        · rw [h1]
        · exact hy z h1
      simp [le_trans hxy hyz]
    · rw [if_neg hxy]
      cases ys with
      | nil =>
        simp only [List.orderedInsert, List.getLast?_cons_cons]
        simp [hxy]
      | cons z zs =>
        have hrec := getLast?_orderedInsert x (z :: zs) hys
        rw [List.orderedInsert] at hrec ⊢
        by_cases hxz : x.1 ≤ z.1
        · rw [if_pos hxz] at hrec ⊢
          rw [List.getLast?_cons_cons, hrec, List.getLast?_cons_cons]
        · rw [if_neg hxz] at hrec ⊢
          rw [List.getLast?_cons_cons, hrec, List.getLast?_cons_cons]

/-- The element `pop()` returns after Python's stable sort by score is the
last element of the unsorted list attaining the maximal score. -/
theorem getLast?_pySortByScore (l : List (ℚ × String)) :
    (pySortByScore l).getLast? = lastMax l := by
  haveI : IsTotal (ℚ × String) (fun a b => a.1 ≤ b.1) := ⟨fun a b => le_total a.1 b.1⟩
  haveI : IsTrans (ℚ × String) (fun a b => a.1 ≤ b.1) := ⟨fun _ _ _ h1 h2 => le_trans h1 h2⟩
  induction l with
  | nil => rfl
  | cons x xs ih =>
    simp only [pySortByScore] at ih ⊢
    show (List.orderedInsert _ x (List.insertionSort _ xs)).getLast? = _
    rw [getLast?_orderedInsert x _ (List.sorted_insertionSort _ xs), ih]
    conv_rhs => rw [lastMax]

/-- `lastMax` of a non-empty list is `some`. -/
theorem lastMax_ne_none (x : ℚ × String) (xs : List (ℚ × String)) :
    lastMax (x :: xs) ≠ none := by
  rw [lastMax]
  cases lastMax xs with
  | none => simp
  | some z =>
    by_cases hxz : x.1 ≤ z.1 <;> simp [hxz]

/-- `lastMax` indeed returns a member attaining the maximal score. -/
theorem lastMax_spec (l : List (ℚ × String)) (p : ℚ × String) (h : lastMax l = some p) :
    p ∈ l ∧ ∀ x ∈ l, x.1 ≤ p.1 := by
  induction l generalizing p with
  | nil => simp [lastMax] at h
  | cons x xs ih =>
    rw [lastMax] at h
    cases hx : lastMax xs with
    | none =>
      rw [hx] at h
      simp only [Option.some.injEq] at h
      have hxs : xs = [] := by
        cases xs with
        | nil => rfl
        | cons a as => exact absurd hx (lastMax_ne_none a as)
      subst hxs
      refine ⟨by simp [← h], ?_⟩
      intro w hw
      rw [List.mem_singleton.mp hw, ← h]
    | some z =>
      rw [hx] at h
      have h : (if x.1 ≤ z.1 then some z else some x) = some p := h
      obtain ⟨hmem, hmax⟩ := ih z hx
      by_cases hxz : x.1 ≤ z.1
      · rw [if_pos hxz] at h
        simp only [Option.some.injEq] at h
        subst h
        refine ⟨List.mem_cons_of_mem _ hmem, ?_⟩
        intro w hw
        rcases List.mem_cons.mp hw with h1 | h1
        · rw [h1]; exact hxz
        · exact hmax w h1
      · rw [if_neg hxz] at h
        simp only [Option.some.injEq] at h
        subst h
        refine ⟨List.mem_cons_self _ _, ?_⟩
        intro w hw
        rcases List.mem_cons.mp hw with h1 | h1
        · rw [h1]
        · exact le_trans (hmax w h1) (le_of_not_le hxz)

/-- C2, counterexample.  `["x1", "x2"]` and `["x2", "x1"]` enumerate the
same `remaining` set, yet `forward_selected` returns different selected
lists for them: the scores tie exactly at `1` and
`scores_with_candidates.sort(key=lambda x: x[0])` sorts by score alone, so
`pop()` yields the tied candidate that happens to come last in the set's
incidental iteration order — not the winner of the claimed ascending
`(score, candidate-identity)` sort, which would be `"x2"` in both runs. -/
theorem claim_C2_counterexample :
    List.Perm ["x1", "x2"] ["x2", "x1"] ∧
    forward_selected dataC2 "y" [] 1 ["x1", "x2"] 2 = .model ["x2"] ∧
    forward_selected dataC2 "y" [] 1 ["x2", "x1"] 2 = .model ["x1"] ∧
    specTieBreakWinner [(1, "x2"), (1, "x1")] = some (1, "x2") := by
  have hs1 : fitCandidate cfgC2 [] "x1" = .scored 1 := fitC2 _ (Or.inl rfl)
  have hs2 : fitCandidate cfgC2 [] "x2" = .scored 1 := fitC2 _ (Or.inr rfl)
  have hscanA : scanCandidates cfgC2 [] ["x1", "x2"] = .scores [(1, "x1"), (1, "x2")] := by
    simp [scanCandidates, hs1, hs2]
  have hscanB : scanCandidates cfgC2 [] ["x2", "x1"] = .scores [(1, "x2"), (1, "x1")] := by
    simp [scanCandidates, hs1, hs2]
  have hroundA : fsRound cfgC2 ⟨["x1", "x2"], [], 0, 0⟩ = .next ⟨["x1"], ["x2"], 1, 1⟩ := by
    rw [fsRound_scores hscanA]
    decide
  have hroundB : fsRound cfgC2 ⟨["x2", "x1"], [], 0, 0⟩ = .next ⟨["x2"], ["x1"], 1, 1⟩ := by
    rw [fsRound_scores hscanB]
    decide
  have hm : cfgC2.maxvars = 1 := by rw [cfgC2_eval]
  refine ⟨by decide, ?_, ?_, by decide⟩
  · show fsRun cfgC2 2 ⟨["x1", "x2"], [], 0, 0⟩ = .model ["x2"]
    rw [fsRun]
    simp only [hroundA, hm]
    norm_num
    rw [fsRun]
    simp [hm]
  · show fsRun cfgC2 2 ⟨["x2", "x1"], [], 0, 0⟩ = .model ["x1"]
    rw [fsRun]
    simp only [hroundB, hm]
    norm_num
    rw [fsRun]
    simp [hm]

/-- A state on which the loop body neither commits nor exits repeats
forever: the `while` loop never terminates from it. -/
theorem fsRun_fixpoint {cfg : FSConfig} {s : FSState} (h : fsRound cfg s = .next s)
    (hcond : s.remaining ≠ [] ∧ s.currentScore = s.bestNewScore ∧
      s.selected.length < cfg.maxvars) :
    ∀ fuel, fsRun cfg fuel s = .fuelOut := by
  intro fuel
  induction fuel with
  | zero => rfl
  | succ n ih =>
    rw [fsRun, if_pos hcond, h]
    exact ih

/-- `cfgC3` evaluated. -/
theorem cfgC3_eval : cfgC3 = ⟨dataC3, 5, 5, [1, -1, 0, 0, 0], 0, 2⟩ := by
  have h : dfLookup dataC3 "y" = some [1, -1, 0, 0, 0] := by decide
  simp only [cfgC3, mkConfig, h, Option.getD_some]
  norm_num [sumL]

/-- The single candidate of `dataC3` scores exactly `0`, the initial
current score. -/
theorem fitC3 : fitCandidate cfgC3 [] "x" = .scored 0 := by
  have hX : xCand cfgC3 [] "x" = [[1, 0, -1, 0, 0], [1, 1, 1, 1, 1]] := by
    rw [xCand, cfgC3_eval]
    decide
  have hp : pCand cfgC3 [] "x" = 1 := by
    rw [pCand, cfgC3_eval]
    decide
  have hinv : invL (xtxL (xCand cfgC3 [] "x")) = some [[1/2, 0], [0, 1/5]] := by
    rw [hX]
    norm_num [xtxL, dotL, invL, detL, detSized, minorL, rangeOne, rangeTwo]
  have hdof : ¬ ((cfgC3.n : ℤ) - (pCand cfgC3 [] "x" : ℤ) - 1 < 1) := by
    rw [hp, cfgC3_eval]
    norm_num
  rw [fitCandidate_of_inv_scored hinv hdof]
  simp only [CandOut.scored.injEq, scoreWithInv, betaWithInv, hX, hp]
  simp only [cfgC3_eval]
  norm_num [fittedCand, ssresOf, sumL, dotL, matVecL, rangeFive]

/-- C3, counterexample.  When the round's best score exactly equals the
current score the loop does not halt: the body commits nothing and leaves
the state unchanged, so the `while` condition
`current_score == best_new_score` still holds and the loop repeats
forever (the state is a fixpoint; with fuel 8 the run is still going). -/
theorem claim_C3_counterexample :
    fsRound cfgC3 ⟨["x"], [], 0, 0⟩ = .next ⟨["x"], [], 0, 0⟩ ∧
    forward_selected dataC3 "y" [] 5 ["x"] 8 = .fuelOut := by
  have hscan : scanCandidates cfgC3 [] ["x"] = .scores [(0, "x")] := by
    simp [scanCandidates, fitC3]
  have hround : fsRound cfgC3 ⟨["x"], [], 0, 0⟩ = .next ⟨["x"], [], 0, 0⟩ := by
    rw [fsRound_scores hscan]
    decide
  have hm : cfgC3.maxvars = 5 := by rw [cfgC3_eval]
  exact ⟨hround, fsRun_fixpoint hround (by refine ⟨by decide, rfl, ?_⟩; rw [hm]; decide) 8⟩

/-- If any remaining candidate triggers the degrees-of-freedom guard, the
whole scoring pass returns the early-halt outcome, whatever the other
candidates do. -/
theorem scanCandidates_dofHalt_of_mem {cfg : FSConfig} {sel : List String} {c : String}
    (hfit : fitCandidate cfg sel c = .dof) :
    ∀ rem : List String, c ∈ rem → scanCandidates cfg sel rem = .dofHalt := by
  intro rem
  induction rem with
  | nil => intro h; exact absurd h (List.not_mem_nil c)
  | cons d rest ih =>
    intro hmem
    rcases List.mem_cons.mp hmem with rfl | hmem
    · rw [scanCandidates, hfit]
    · cases hfit' : fitCandidate cfg sel d <;> rw [scanCandidates, hfit'] <;>
        simp [ih hmem]

/-- `cfgC4` evaluated. -/
theorem cfgC4_eval : cfgC4 = ⟨dataC4, 1, 4, [1, -1, 1, -1], 0, 4⟩ := by
  have h : dfLookup dataC4 "y" = some [1, -1, 1, -1] := by decide
  simp only [cfgC4, mkConfig, h, Option.getD_some]
  norm_num [sumL]

/-- The interaction candidate of `dataC4` is skipped: its round model has
`p = 3` and a singular normal matrix, so the `LinAlgError` skip fires
before the degrees-of-freedom check is reached. -/
theorem fitC4AB : fitCandidate cfgC4 [] "A*B" = .skip := by
  have hX : xCand cfgC4 [] "A*B" =
      [[1, 1, 1, 1], [1, -1, 1, -1], [1, -1, 1, -1], [1, 1, 1, 1]] := by
    decide
  refine fitCandidate_of_inv_none (invL_of_det_eq_zero ?_)
  rw [hX]
  norm_num [xtxL, dotL, detL, detSized, minorL, List.eraseIdx,
    rangeOne, rangeTwo, rangeThree, rangeFour]

/-- The two (duplicate) base candidates of `dataC4` each score exactly
`1`. -/
theorem fitC4 (c : String) (hc : c = "A" ∨ c = "B") :
    fitCandidate cfgC4 [] c = .scored 1 := by
  have hX : xCand cfgC4 [] c = [[1, -1, 1, -1], [1, 1, 1, 1]] := by
    rcases hc with rfl | rfl <;> decide
  have hp : pCand cfgC4 [] c = 1 := by
    rcases hc with rfl | rfl <;> decide
  have hinv : invL (xtxL (xCand cfgC4 [] c)) = some [[1/4, 0], [0, 1/4]] := by
    rw [hX]
    norm_num [xtxL, dotL, invL, detL, detSized, minorL, rangeOne, rangeTwo]
  have hdof : ¬ ((cfgC4.n : ℤ) - (pCand cfgC4 [] c : ℤ) - 1 < 1) := by
    rw [hp, cfgC4_eval]
    norm_num
  rw [fitCandidate_of_inv_scored hinv hdof]
  simp only [CandOut.scored.injEq, scoreWithInv, betaWithInv, hX, hp]
  simp only [cfgC4_eval]
  norm_num [fittedCand, ssresOf, sumL, dotL, matVecL, rangeFour]

/-- C4, counterexample.  In the first scoring round of `dataC4` the
candidate `"A*B"` would leave `n − p − 1 = 4 − 3 − 1 = 0 < 1` residual
degrees of freedom, yet the search does not halt with the pre-round
selected set `[]`: because the singularity check precedes the
degrees-of-freedom check, the candidate is merely skipped, the round goes
on to commit `"B"`, and the returned model is fit on `["B"]`. -/
theorem claim_C4_counterexample :
    pCand cfgC4 [] "A*B" = 3 ∧ ((4 : ℤ) - 3 - 1 < 1) ∧
    fitCandidate cfgC4 [] "A*B" = .skip ∧
    forward_selected dataC4 "y" [] 1 ["A*B", "A", "B"] 2 = .model ["B"] := by
  have hA : fitCandidate cfgC4 [] "A" = .scored 1 := fitC4 _ (Or.inl rfl)
  have hB : fitCandidate cfgC4 [] "B" = .scored 1 := fitC4 _ (Or.inr rfl)
  have hscan : scanCandidates cfgC4 [] ["A*B", "A", "B"] = .scores [(1, "A"), (1, "B")] := by
    simp [scanCandidates, fitC4AB, hA, hB]
  have hround : fsRound cfgC4 ⟨["A*B", "A", "B"], [], 0, 0⟩ = .next ⟨["A*B", "A"], ["B"], 1, 1⟩ := by
    rw [fsRound_scores hscan]
    decide
  have hm : cfgC4.maxvars = 1 := by rw [cfgC4_eval]
  refine ⟨by decide, by decide, fitC4AB, ?_⟩
  show fsRun cfgC4 2 ⟨["A*B", "A", "B"], [], 0, 0⟩ = .model ["B"]
  rw [fsRun]
  simp only [hround, hm]
  norm_num
  rw [fsRun]
  simp [hm]

/-- `cfgC5` evaluated. -/
theorem cfgC5_eval : cfgC5 = ⟨dataC5, 1, 5, [1, -1, -1, 1, 0], 0, 4⟩ := by
  have h : dfLookup dataC5 "y" = some [1, -1, -1, 1, 0] := by decide
  simp only [cfgC5, mkConfig, h, Option.getD_some]
  norm_num [sumL]

/-- The base candidate `"A"` of `dataC5` is orthogonal to the response and
scores `-1/3`. -/
theorem fitC5A : fitCandidate cfgC5 [] "A" = .scored (-1/3) := by
  have hX : xCand cfgC5 [] "A" = [[1, -1, 1, -1, 0], [1, 1, 1, 1, 1]] := by decide
  have hp : pCand cfgC5 [] "A" = 1 := by decide
  have hinv : invL (xtxL (xCand cfgC5 [] "A")) = some [[1/4, 0], [0, 1/5]] := by
    rw [hX]
    norm_num [xtxL, dotL, invL, detL, detSized, minorL, rangeOne, rangeTwo]
  have hdof : ¬ ((cfgC5.n : ℤ) - (pCand cfgC5 [] "A" : ℤ) - 1 < 1) := by
    rw [hp, cfgC5_eval]
    norm_num
  rw [fitCandidate_of_inv_scored hinv hdof]
  simp only [CandOut.scored.injEq, scoreWithInv, betaWithInv, hX, hp]
  simp only [cfgC5_eval]
  norm_num [fittedCand, ssresOf, sumL, dotL, matVecL, rangeFive]

/-- The base candidate `"B"` of `dataC5` is orthogonal to the response and
scores `-1/3`. -/
theorem fitC5B : fitCandidate cfgC5 [] "B" = .scored (-1/3) := by
  have hX : xCand cfgC5 [] "B" = [[1, 1, -1, -1, 0], [1, 1, 1, 1, 1]] := by decide
  have hp : pCand cfgC5 [] "B" = 1 := by decide
  have hinv : invL (xtxL (xCand cfgC5 [] "B")) = some [[1/4, 0], [0, 1/5]] := by
    rw [hX]
    norm_num [xtxL, dotL, invL, detL, detSized, minorL, rangeOne, rangeTwo]
  have hdof : ¬ ((cfgC5.n : ℤ) - (pCand cfgC5 [] "B" : ℤ) - 1 < 1) := by
    rw [hp, cfgC5_eval]
    norm_num
  rw [fitCandidate_of_inv_scored hinv hdof]
  simp only [CandOut.scored.injEq, scoreWithInv, betaWithInv, hX, hp]
  simp only [cfgC5_eval]
  norm_num [fittedCand, ssresOf, sumL, dotL, matVecL, rangeFive]

/-- The interaction candidate of `dataC5` fits the response exactly and
scores `1`. -/
theorem fitC5AB : fitCandidate cfgC5 [] "A*B" = .scored 1 := by
  have hX : xCand cfgC5 [] "A*B" =
      [[1, -1, -1, 1, 0], [1, -1, 1, -1, 0], [1, 1, -1, -1, 0], [1, 1, 1, 1, 1]] := by
    decide
  have hp : pCand cfgC5 [] "A*B" = 3 := by decide
  have hinv : invL (xtxL (xCand cfgC5 [] "A*B")) =
      some [[1/4, 0, 0, 0], [0, 1/4, 0, 0], [0, 0, 1/4, 0], [0, 0, 0, 1/5]] := by
    rw [hX]
    norm_num [xtxL, dotL, invL, detL, detSized, minorL, List.eraseIdx,
      rangeOne, rangeTwo, rangeThree, rangeFour]
  have hdof : ¬ ((cfgC5.n : ℤ) - (pCand cfgC5 [] "A*B" : ℤ) - 1 < 1) := by
    rw [hp, cfgC5_eval]
    norm_num
  rw [fitCandidate_of_inv_scored hinv hdof]
  simp only [CandOut.scored.injEq, scoreWithInv, betaWithInv, hX, hp]
  simp only [cfgC5_eval]
  norm_num [fittedCand, ssresOf, sumL, dotL, matVecL, rangeFive]

/-- C5, counterexample.  With `maxvars = 1` the winning interaction term
`"A*B"` pulls in its two base features in the same commit: the final
selected set is `["A", "B", "A*B"]`, of size `3 > maxvars = 1`.  The
`len(selected) < maxvars` loop guard bounds only the size at the start of
a round, not the size after an interaction commit. -/
theorem claim_C5_counterexample :
    forward_selected dataC5 "y" [] 1 ["A", "B", "A*B"] 2 = .model ["A", "B", "A*B"] ∧
    ¬ (["A", "B", "A*B"].length ≤ cfgC5.maxvars) := by
  have hA : fitCandidate cfgC5 [] "A" = .scored (-1/3) := fitC5A
  have hB : fitCandidate cfgC5 [] "B" = .scored (-1/3) := fitC5B
  have hscan : scanCandidates cfgC5 [] ["A", "B", "A*B"] =
      .scores [(-1/3, "A"), (-1/3, "B"), (1, "A*B")] := by
    simp [scanCandidates, hA, hB, fitC5AB]
  have hsort : pySortByScore [(-1/3, "A"), (-1/3, "B"), (1, "A*B")] =
      [(-1/3, "A"), (-1/3, "B"), (1, "A*B")] := by
    norm_num [pySortByScore, List.insertionSort, List.orderedInsert]
  have hcommit : commitWinner ⟨["A", "B", "A*B"], [], 0, 0⟩ 1 "A*B" =
      ⟨[], ["A", "B", "A*B"], 1, 1⟩ := by
    decide
  have hround : fsRound cfgC5 ⟨["A", "B", "A*B"], [], 0, 0⟩ =
      .next ⟨[], ["A", "B", "A*B"], 1, 1⟩ := by
    rw [fsRound_scores hscan, hsort]
    simp only [List.getLast?_cons_cons, List.getLast?_singleton]
    rw [if_pos (by norm_num), hcommit]
  have hm : cfgC5.maxvars = 1 := by rw [cfgC5_eval]
  constructor
  · show fsRun cfgC5 2 ⟨["A", "B", "A*B"], [], 0, 0⟩ = .model ["A", "B", "A*B"]
    rw [fsRun]
    simp only [hround, hm]
    norm_num
    rw [fsRun]
    simp
  · rw [hm]
    decide

/-- Every scored candidate of a round comes from the `remaining` list. -/
theorem scanCandidates_scores_mem {cfg : FSConfig} {sel : List String} :
    ∀ {rem : List String} {l : List (ℚ × String)},
      scanCandidates cfg sel rem = .scores l → ∀ p ∈ l, p.2 ∈ rem := by
  intro rem
  induction rem with
  | nil =>
    intro l h p hp
    rw [scanCandidates] at h
    simp only [ScanOut.scores.injEq] at h
    rw [← h] at hp
    exact absurd hp (List.not_mem_nil p)
  | cons d rest ih =>
    intro l h p hp
    rw [scanCandidates] at h
    cases hfit : fitCandidate cfg sel d <;> rw [hfit] at h
    · exact List.mem_cons_of_mem d (ih h p hp)
    · exact absurd h (by simp)
    · cases hrest : scanCandidates cfg sel rest <;> rw [hrest] at h
      · exact absurd h (by simp)
      · simp only [ScanOut.scores.injEq] at h
        rw [← h] at hp
        rcases List.mem_cons.mp hp with rfl | hp'
        · exact List.mem_cons_self d rest
        · exact List.mem_cons_of_mem d (ih hrest p hp')

/-- An early-halt round returns exactly the current selected list. -/
theorem fsRound_halted_selected {cfg : FSConfig} {s : FSState} {sel' : List String}
    (h : fsRound cfg s = .halted sel') : sel' = s.selected := by
  rw [fsRound] at h
  cases hsc : scanCandidates cfg s.selected s.remaining with
  | dofHalt =>
    rw [hsc] at h
    have h : RoundOut.halted s.selected = .halted sel' := h
    cases h
    rfl
  | scores l =>
    rw [hsc] at h
    have h : (match (pySortByScore l).getLast? with
        | none => RoundOut.crashed
        | some (b, c) =>
          if s.currentScore < b then RoundOut.next (commitWinner s b c)
          else .next { s with bestNewScore := b }) = .halted sel' := h
    cases hlast : (pySortByScore l).getLast? with
    | none => rw [hlast] at h; exact absurd h (by simp)
    | some p =>
      rw [hlast] at h
      have h : (if s.currentScore < p.1 then RoundOut.next (commitWinner s p.1 p.2)
          else .next { s with bestNewScore := p.1 }) = .halted sel' := h
      by_cases himp : s.currentScore < p.1 <;>
        [rw [if_pos himp] at h; rw [if_neg himp] at h] <;> exact absurd h (by simp)

/-- A completed round either commits a remaining candidate that strictly
improves the score, or records only the (non-improving) best score. -/
theorem fsRound_next_cases {cfg : FSConfig} {s s' : FSState}
    (h : fsRound cfg s = .next s') :
    (s'.remaining = s.remaining ∧ s'.selected = s.selected) ∨
    ∃ b c, c ∈ s.remaining ∧ s.currentScore < b ∧ s' = commitWinner s b c := by
  rw [fsRound] at h
  cases hsc : scanCandidates cfg s.selected s.remaining with
  | dofHalt =>
    rw [hsc] at h
    exact absurd h (by simp)
  | scores l =>
    rw [hsc] at h
    have h : (match (pySortByScore l).getLast? with
        | none => RoundOut.crashed
        | some (b, c) =>
          if s.currentScore < b then RoundOut.next (commitWinner s b c)
          else .next { s with bestNewScore := b }) = .next s' := h
    cases hlast : (pySortByScore l).getLast? with
    | none => rw [hlast] at h; exact absurd h (by simp)
    | some p =>
      rw [hlast] at h
      have hmem : p.2 ∈ s.remaining :=
        scanCandidates_scores_mem hsc p
          ((List.perm_insertionSort _ l).mem_iff.mp (mem_of_getLast?_eq hlast))
      have h : (if s.currentScore < p.1 then RoundOut.next (commitWinner s p.1 p.2)
          else .next { s with bestNewScore := p.1 }) = .next s' := h
      by_cases himp : s.currentScore < p.1
      · rw [if_pos himp] at h
        simp only [RoundOut.next.injEq] at h
        exact Or.inr ⟨p.1, p.2, hmem, himp, h.symm⟩
      · rw [if_neg himp] at h
        simp only [RoundOut.next.injEq] at h
        rw [← h]
        exact Or.inl ⟨rfl, rfl⟩

/-- For a non-interaction winner the commit only moves the winner itself
from `remaining` to the end of `selected`. -/
theorem commitWinner_no_star {s : FSState} {b : ℚ} {c : String}
    (h : hasStar c = false) :
    commitWinner s b c = ⟨s.remaining.erase c, s.selected ++ [c], b, b⟩ := by
  simp [commitWinner, h]

/-- C2, amended.  For every fixed iteration order of the `remaining` set,
the selection is deterministic, and the committed winner of a round is
`lastMax`: the candidate attaining the maximal score that comes last in
the incidental iteration order.  The sort key is the score alone, so the
tie-break is iteration order, not candidate identity, and two calls agree
only insofar as the iteration order of the Python set (and the contents of
the aliased `force_in` list) coincide. -/
theorem claim_C2 (l : List (ℚ × String)) :
    (pySortByScore l).getLast? = lastMax l ∧
    ∀ p : ℚ × String, lastMax l = some p → p ∈ l ∧ ∀ x ∈ l, x.1 ≤ p.1 :=
  ⟨getLast?_pySortByScore l, fun p h => lastMax_spec l p h⟩

/-- C2, witness: the amended theorem applied to a concrete tied score
list. -/
theorem claim_C2_witness :
    (pySortByScore [(2, "a"), (2, "b")]).getLast? = lastMax [(2, "a"), (2, "b")] ∧
    (((2 : ℚ), "b") ∈ [((2 : ℚ), "a"), (2, "b")] ∧
      ∀ x ∈ [((2 : ℚ), "a"), (2, "b")], x.1 ≤ (2 : ℚ)) :=
  ⟨(claim_C2 [(2, "a"), (2, "b")]).1,
   (claim_C2 [(2, "a"), (2, "b")]).2 (2, "b") (by decide)⟩

/-- C3, amended.  The current score never decreases across rounds (commits
strictly increase it), and the loop halts the round after the best
candidate's score differs from — in particular is strictly below — the
current score: from such a state the next iteration returns the model on
the selected set without scoring anything.  (When the best score exactly
equals the current score nothing is committed but the loop condition still
holds, so the loop repeats; see the counterexample.) -/
theorem claim_C3 {cfg : FSConfig} {s s' : FSState} (h : fsRound cfg s = .next s') :
    s.currentScore ≤ s'.currentScore ∧
    (s'.bestNewScore ≠ s'.currentScore →
      ∀ fuel, fsRun cfg (fuel + 1) s' = .model s'.selected) := by
  constructor
  · rw [fsRound] at h
    cases hsc : scanCandidates cfg s.selected s.remaining with
    | dofHalt => rw [hsc] at h; exact absurd h (by simp)
    | scores l =>
      rw [hsc] at h
      have h : (match (pySortByScore l).getLast? with
          | none => RoundOut.crashed
          | some (b, c) =>
            if s.currentScore < b then RoundOut.next (commitWinner s b c)
            else .next { s with bestNewScore := b }) = .next s' := h
      cases hlast : (pySortByScore l).getLast? with
      | none => rw [hlast] at h; exact absurd h (by simp)
      | some p =>
        rw [hlast] at h
        have h : (if s.currentScore < p.1 then RoundOut.next (commitWinner s p.1 p.2)
            else .next { s with bestNewScore := p.1 }) = .next s' := h
        by_cases himp : s.currentScore < p.1
        · rw [if_pos himp] at h
          simp only [RoundOut.next.injEq] at h
          rw [← h]
          exact le_of_lt himp
        · rw [if_neg himp] at h
          simp only [RoundOut.next.injEq] at h
          rw [← h]
  · intro hne fuel
    rw [fsRun, if_neg]
    intro hcond
    exact hne (hcond.2.1.symm)

/-- C3, witness: the amended theorem applied to a round of `dataC2` from a
state whose current score `2` exceeds both candidates' scores `1`: the
round commits nothing, records `best_new_score = 1`, and the next
iteration halts with the selected set unchanged. -/
theorem claim_C3_witness :
    (2 : ℚ) ≤ 2 ∧
    ((1 : ℚ) ≠ 2 → ∀ fuel, fsRun cfgC2 (fuel + 1) ⟨["x1", "x2"], [], 2, 1⟩ = .model []) := by
  have hs1 : fitCandidate cfgC2 [] "x1" = .scored 1 := fitC2 _ (Or.inl rfl)
  have hs2 : fitCandidate cfgC2 [] "x2" = .scored 1 := fitC2 _ (Or.inr rfl)
  have hscan : scanCandidates cfgC2 [] ["x1", "x2"] = .scores [(1, "x1"), (1, "x2")] := by
    simp [scanCandidates, hs1, hs2]
  exact @claim_C3 cfgC2 ⟨["x1", "x2"], [], 2, 2⟩ ⟨["x1", "x2"], [], 2, 1⟩
    (by rw [fsRound_scores hscan]; decide)

/-- C4, amended.  If some remaining candidate's fit triggers the
degrees-of-freedom guard — which by the structure of the loop body
requires its normal matrix to be invertible and `n − p − 1 < 1` — then the
whole search halts in that round and returns the model fit on exactly the
already-selected predictors, regardless of other still-viable candidates.
(A candidate that is both DOF-violating and singular is instead skipped
like any singular candidate; see the counterexample.) -/
theorem claim_C4 {cfg : FSConfig} {s : FSState} {c : String}
    (hmem : c ∈ s.remaining) (hfit : fitCandidate cfg s.selected c = .dof) :
    ∀ fuel, fsRun cfg (fuel + 1) s = .model s.selected := by
  intro fuel
  have hround : fsRound cfg s = .halted s.selected := by
    rw [fsRound, scanCandidates_dofHalt_of_mem hfit s.remaining hmem]
  rw [fsRun]
  by_cases hcond : s.remaining ≠ [] ∧ s.currentScore = s.bestNewScore ∧
      s.selected.length < cfg.maxvars
  · rw [if_pos hcond, hround]
  · rw [if_neg hcond]

/-- The candidate `"b"` of `dataC4w`, with `"a"` already selected, has an
invertible `3×3` normal matrix and `n − p − 1 = 3 − 2 − 1 = 0 < 1`. -/
theorem fitC4w : fitCandidate cfgC4w ["a"] "b" = .dof := by
  have hX : xCand cfgC4w ["a"] "b" = [[1, 2, 4], [1, 3, 2], [1, 1, 1]] := by
    decide
  have hne : ¬ detL (xtxL (xCand cfgC4w ["a"] "b")) = 0 := by
    rw [hX]
    norm_num [xtxL, dotL, detL, detSized, minorL, List.eraseIdx,
      rangeOne, rangeTwo, rangeThree]
  exact fitCandidate_of_inv_dof (invL_of_det_ne_zero hne) (by decide)

/-- C4, witness: the amended theorem applied to `dataC4w`. -/
theorem claim_C4_witness : fsRun cfgC4w 4 ⟨["b"], ["a"], 0, 0⟩ = .model ["a"] :=
  claim_C4 (by decide) fitC4w 3

/-- C5, amended.  The `len(selected) < maxvars` loop guard bounds the
selected set at the start of every round, so when no remaining candidate
is an interaction term (each commit adds exactly one predictor) the final
selected set respects `maxvars`; an interaction commit, however, can add
the winner plus its base features in one round and exceed `maxvars` (see
the counterexample). -/
theorem claim_C5 {cfg : FSConfig} :
    ∀ (fuel : Nat) (s : FSState) (sel : List String),
      (∀ c ∈ s.remaining, hasStar c = false) →
      s.selected.length ≤ cfg.maxvars →
      fsRun cfg fuel s = .model sel →
      sel.length ≤ cfg.maxvars := by
  intro fuel
  induction fuel with
  | zero =>
    intro s sel _ _ hrun
    exact absurd hrun (by rw [fsRun]; simp)
  | succ n ih =>
    intro s sel hstar hlen hrun
    rw [fsRun] at hrun
    by_cases hcond : s.remaining ≠ [] ∧ s.currentScore = s.bestNewScore ∧
        s.selected.length < cfg.maxvars
    · rw [if_pos hcond] at hrun
      cases hr : fsRound cfg s <;> rw [hr] at hrun
      · have hsel : RunOut.model _ = RunOut.model sel := hrun
        simp only [RunOut.model.injEq] at hsel
        rw [← hsel, fsRound_halted_selected hr]
        exact hlen
      · exact absurd hrun (by simp)
      · rename_i s'
        rcases fsRound_next_cases hr with ⟨hrem, hsel⟩ | ⟨b, c, hmem, _, hcommit⟩
        · refine ih s' sel ?_ ?_ hrun
          · rw [hrem]; exact hstar
          · rw [hsel]; exact hlen
        · have hc : hasStar c = false := hstar c hmem
          rw [commitWinner_no_star hc] at hcommit
          refine ih s' sel ?_ ?_ hrun
          · rw [hcommit]
            intro d hd
            exact hstar d (List.mem_of_mem_erase hd)
          · rw [hcommit]
            simp only [List.length_append, List.length_singleton]
            exact hcond.2.2
    · rw [if_neg hcond] at hrun
      simp only [RunOut.model.injEq] at hrun
      rw [← hrun]
      exact hlen

/-- C5, witness: the amended bound applied to the interaction-free run on
`dataC2`. -/
theorem claim_C5_witness : (["x2"] : List String).length ≤ cfgC2.maxvars := by
  have hs1 : fitCandidate cfgC2 [] "x1" = .scored 1 := fitC2 _ (Or.inl rfl)
  have hs2 : fitCandidate cfgC2 [] "x2" = .scored 1 := fitC2 _ (Or.inr rfl)
  have hscan : scanCandidates cfgC2 [] ["x1", "x2"] = .scores [(1, "x1"), (1, "x2")] := by
    simp [scanCandidates, hs1, hs2]
  have hround : fsRound cfgC2 ⟨["x1", "x2"], [], 0, 0⟩ = .next ⟨["x1"], ["x2"], 1, 1⟩ := by
    rw [fsRound_scores hscan]
    decide
  have hm : cfgC2.maxvars = 1 := by rw [cfgC2_eval]
  have hrun : fsRun cfgC2 2 ⟨["x1", "x2"], [], 0, 0⟩ = .model ["x2"] := by
    rw [fsRun]
    simp only [hround, hm]
    norm_num
    rw [fsRun]
    simp [hm]
  exact claim_C5 2 ⟨["x1", "x2"], [], 0, 0⟩ ["x2"] (by decide) (by rw [hm]; decide) hrun

/-- The base-feature pull-in loop, characterised: with pairwise-distinct
base names it removes every base from `remaining` (removal of an absent
name is a no-op) and appends, in split order, exactly the bases not
already selected. -/
theorem commitBases_eq :
    ∀ (bases : List String), bases.Nodup → ∀ s : FSState,
      commitBases bases s =
        { s with
          remaining := bases.foldl (fun r b0 => r.erase b0) s.remaining,
          selected := s.selected ++ bases.filter (fun b0 => !(s.selected.contains b0)) }
  | [], _, s => by simp [commitBases]
  | b :: rest, hnd, s => by
    obtain ⟨hb, hrest⟩ := List.nodup_cons.mp hnd
    have hstep : commitBases (b :: rest) s = commitBases rest
        { s with
          remaining := if s.remaining.contains b then s.remaining.erase b else s.remaining,
          selected := if s.selected.contains b then s.selected else s.selected ++ [b] } := rfl
    rw [hstep, commitBases_eq rest hrest]
    have hrem : (if s.remaining.contains b then s.remaining.erase b else s.remaining) =
        s.remaining.erase b := by
      by_cases hc : s.remaining.contains b = true
      · rw [if_pos hc]
      · rw [if_neg hc, List.erase_of_not_mem]
        intro hmem
        exact hc (List.elem_iff.mpr hmem)
    have hfilter : rest.filter (fun b0 => !((s.selected ++ [b]).contains b0)) =
        rest.filter (fun b0 => !(s.selected.contains b0)) := by
      refine List.filter_congr ?_
      intro d hd
      have hdb : d ≠ b := fun hbd => hb (hbd ▸ hd)
      have hcd : ((s.selected ++ [b]).contains d) = (s.selected.contains d) := by
        rw [Bool.eq_iff_iff]
        simp [List.elem_iff, hdb]
      rw [hcd]
    by_cases hc : s.selected.contains b = true
    · have hcb : (!(s.selected.contains b)) = false := by rw [hc]; rfl
      simp only [hrem, if_pos hc, List.foldl_cons, List.filter_cons, hcb,
        Bool.false_eq_true, if_false]
    · have hcf : s.selected.contains b = false := Bool.eq_false_iff.mpr hc
      have hcb : (!(s.selected.contains b)) = true := by rw [hcf]; rfl
      simp only [hrem, if_neg hc, List.foldl_cons, List.filter_cons, hcb, if_true, hfilter]
      simp [List.append_assoc]

/-- C6.  Every score the loop records is exactly
`R²_adj = 1 − (1 − SS_res/SST)·(n−1)/(n−p−1)` (`adjR2_spec`, transcribed
from the spec), where `SS_res = ssresOf` is computed from the fitted
values `ŷ = Xβ` against the full-response mean (not from the residuals
`y − ŷ`), `p = pCand` is the number of non-intercept design columns the
filter found, and `n`, `ȳ` and `SST = Σ(yᵢ − ȳ)²` are computed once from
the full response before the loop starts. -/
theorem claim_C6 {data : DataFrame} {response : String} {mv : Nat} {cfg : FSConfig}
    (hcfg : cfg = mkConfig data response mv) {sel : List String} {c : String} {r : ℚ}
    (h : fitCandidate cfg sel c = .scored r) :
    ∃ M, invL (xtxL (xCand cfg sel c)) = some M ∧
      (1 : ℤ) ≤ (cfg.n : ℤ) - (pCand cfg sel c : ℤ) - 1 ∧
      r = adjR2_spec cfg.n (pCand cfg sel c)
            (ssresOf cfg (fittedCand cfg (betaWithInv cfg sel c M) (xCand cfg sel c)))
            cfg.SST ∧
      cfg.y = (dfLookup data response).getD [] ∧
      cfg.n = cfg.y.length ∧
      cfg.yMean = sumL cfg.y / (cfg.n : ℚ) ∧
      cfg.SST = sumL (cfg.y.map (fun v => (v - cfg.yMean) ^ 2)) := by
  rw [fitCandidate] at h
  cases hinv : invL (xtxL (xCand cfg sel c)) with
  | none =>
    rw [hinv] at h
    exact absurd h (by simp)
  | some M =>
    rw [hinv] at h
    have h : (if (cfg.n : ℤ) - (pCand cfg sel c : ℤ) - 1 < 1 then CandOut.dof
        else .scored (scoreWithInv cfg sel c M)) = .scored r := h
    by_cases hdof : (cfg.n : ℤ) - (pCand cfg sel c : ℤ) - 1 < 1
    · rw [if_pos hdof] at h
      exact absurd h (by simp)
    · rw [if_neg hdof] at h
      simp only [CandOut.scored.injEq] at h
      subst hcfg
      exact ⟨M, rfl, le_of_not_lt hdof, h.symm, rfl, rfl, rfl, rfl⟩

/-- C6, witness: the score formula instantiated on the scored candidate of
`dataC3`. -/
theorem claim_C6_witness :
    ∃ M, invL (xtxL (xCand cfgC3 [] "x")) = some M ∧
      (1 : ℤ) ≤ (cfgC3.n : ℤ) - (pCand cfgC3 [] "x" : ℤ) - 1 ∧
      (0 : ℚ) = adjR2_spec cfgC3.n (pCand cfgC3 [] "x")
            (ssresOf cfgC3 (fittedCand cfgC3 (betaWithInv cfgC3 [] "x" M) (xCand cfgC3 [] "x")))
            cfgC3.SST ∧
      cfgC3.y = (dfLookup dataC3 "y").getD [] ∧
      cfgC3.n = cfgC3.y.length ∧
      cfgC3.yMean = sumL cfgC3.y / (cfgC3.n : ℚ) ∧
      cfgC3.SST = sumL (cfgC3.y.map (fun v => (v - cfgC3.yMean) ^ 2)) :=
  claim_C6 rfl fitC3

/-- C7.  When the round's winner strictly improves the current score and
is an interaction term, the commit first moves each of its base features
not yet selected out of `remaining` (removal of an absent name is a no-op)
and appends them to `selected` in split order, then removes the winner
from `remaining` and appends it after the bases, and sets both score
variables to the winning score — all in one round.  When the winner does
not improve the score, nothing is committed: only `best_new_score` is
updated. -/
theorem claim_C7 {cfg : FSConfig} {s : FSState} {l : List (ℚ × String)} {b : ℚ} {c : String}
    (hscan : scanCandidates cfg s.selected s.remaining = .scores l)
    (hbest : (pySortByScore l).getLast? = some (b, c)) :
    (s.currentScore < b → hasStar c = true → (splitStar c).Nodup →
      fsRound cfg s = .next
        ⟨((splitStar c).foldl (fun r b0 => r.erase b0) s.remaining).erase c,
         s.selected ++ (splitStar c).filter (fun b0 => !(s.selected.contains b0)) ++ [c],
         b, b⟩) ∧
    (¬ s.currentScore < b → fsRound cfg s = .next { s with bestNewScore := b }) := by
  have hround : fsRound cfg s =
      (if s.currentScore < b then RoundOut.next (commitWinner s b c)
       else .next { s with bestNewScore := b }) := by
    rw [fsRound_scores hscan, hbest]
  constructor
  · intro himp hstar hnd
    rw [hround, if_pos himp, commitWinner, if_pos hstar, commitBases_eq _ hnd]
  · intro himp
    rw [hround, if_neg himp]

/-- C7, witness: the interaction commit of `dataC5` in the
base-features-then-winner form given by the claim theorem. -/
theorem claim_C7_witness :
    fsRound cfgC5 ⟨["A", "B", "A*B"], [], 0, 0⟩ = .next
      ⟨((splitStar "A*B").foldl (fun r b0 => r.erase b0) ["A", "B", "A*B"]).erase "A*B",
       [] ++ (splitStar "A*B").filter (fun b0 => !(([] : List String).contains b0)) ++ ["A*B"],
       1, 1⟩ := by
  have hscan : scanCandidates cfgC5 [] ["A", "B", "A*B"] =
      .scores [(-1/3, "A"), (-1/3, "B"), (1, "A*B")] := by
    simp [scanCandidates, fitC5A, fitC5B, fitC5AB]
  have hbest : (pySortByScore [(-1/3, "A"), (-1/3, "B"), (1, "A*B")]).getLast? =
      some (1, "A*B") := by
    have hsort : pySortByScore [(-1/3, "A"), (-1/3, "B"), (1, "A*B")] =
        [(-1/3, "A"), (-1/3, "B"), (1, "A*B")] := by
      norm_num [pySortByScore, List.insertionSort, List.orderedInsert]
    rw [hsort]
    rfl
  exact (claim_C7 hscan hbest).1 (by norm_num) (by decide) (by decide)

/-- C1.  On a round in which every remaining candidate's normal matrix is
singular, `scores_with_candidates` is empty and
`scores_with_candidates.pop()` raises an `IndexError` that escapes
`forward_selected` and `gen_model`: the run crashes instead of converging
with the selected set unchanged and returning a `None` failure value. -/
theorem claim_C1 :
    scanCandidates cfgC1 [] ["x"] = .scores [] ∧
    gen_model dataC1 "y" 5 [] 0 ["x"] 1 = .crash := by
  have hscan : scanCandidates cfgC1 [] ["x"] = .scores [] := by
    simp [scanCandidates, fitC1]
  have hround : fsRound cfgC1 ⟨["x"], [], 0, 0⟩ = .crashed := by
    simp [fsRound, hscan, pySortByScore]
  refine ⟨hscan, ?_⟩
  show forward_selected dataC1 "y" [] 5 ["x"] 1 = .crash
  show fsRun cfgC1 1 ⟨["x"], [], 0, 0⟩ = .crash
  have hm : cfgC1.maxvars = 5 := by rw [cfgC1_eval]
  rw [fsRun]
  simp [hround, hm]

/-- C8.  `_model_warnings` maps every fit outcome to `some model` or
`none` — never an exception and never a partial numeric result: it returns
`none` exactly when the OLS fit raised a `RuntimeWarning` (elevated to an
error by the filter) or any other exception, and whenever it returns a
model that model is the one produced by a completed fit (possibly with
ignored `UserWarning`s). -/
theorem claim_C8 {M : Type} (fit : DataFrame → FitOutcome M) (dm : DataFrame) :
    (model_warnings fit dm = none ↔ (fit dm = .runtimeWarning ∨ fit dm = .exn)) ∧
    (∀ m, model_warnings fit dm = some m → fit dm = .ok m ∨ fit dm = .userWarning m) := by
  cases hfit : fit dm <;> simp [model_warnings, hfit]

/-- C8, witness: the finalizer contract applied to a concrete oracle that
raises a numerical warning. -/
theorem claim_C8_witness :
    model_warnings (M := Nat) (fun _ => FitOutcome.runtimeWarning) [] = none :=
  (claim_C8 (fun _ => FitOutcome.runtimeWarning) []).1.mpr (Or.inl rfl)

/-- Every base-feature commit only appends to the selected list. -/
theorem commitBases_selected_extends :
    ∀ (bases : List String) (s : FSState),
      ∃ t, (commitBases bases s).selected = s.selected ++ t
  | [], s => ⟨[], by simp [commitBases]⟩
  | b :: rest, s => by
    have hstep : commitBases (b :: rest) s = commitBases rest
        { s with
          remaining := if s.remaining.contains b then s.remaining.erase b else s.remaining,
          selected := if s.selected.contains b then s.selected else s.selected ++ [b] } := rfl
    obtain ⟨t, ht⟩ := commitBases_selected_extends rest
        { s with
          remaining := if s.remaining.contains b then s.remaining.erase b else s.remaining,
          selected := if s.selected.contains b then s.selected else s.selected ++ [b] }
    rw [hstep, ht]
    by_cases hc : s.selected.contains b = true
    · rw [if_pos hc]
      exact ⟨t, rfl⟩
    · rw [if_neg hc]
      exact ⟨b :: t, by simp⟩

/-- A winner commit only appends to the selected list. -/
theorem commitWinner_selected_extends (s : FSState) (b : ℚ) (c : String) :
    ∃ u, (commitWinner s b c).selected = s.selected ++ u := by
  rw [commitWinner]
  by_cases hstar : hasStar c = true
  · rw [if_pos hstar]
    obtain ⟨t, ht⟩ := commitBases_selected_extends (splitStar c) s
    exact ⟨t ++ [c], by simp [ht]⟩
  · rw [if_neg hstar]
    exact ⟨[c], rfl⟩

/-- C10.  The local `selected` list aliases the very list object passed as
`force_in`, and the loop only ever appends to it: when the run returns a
model on `sel`, the caller's `force_in` list now holds `sel`, which
extends its original contents.  Concretely, with the shared mutable
default `force_in = []`: the first call (on `dataC10a`) selects `"x1"` and
leaves `["x1"]` in the default list; a later call relying on the default
then starts from `force_in = ["x1"]` and returns a model on `["x1"]`,
whereas the same call with a fresh empty `force_in` returns a model on
`["x2"]`. -/
theorem claim_C10 :
    (∀ (cfg : FSConfig) (fuel : Nat) (s : FSState) (sel : List String),
        fsRun cfg fuel s = .model sel → ∃ t, sel = s.selected ++ t) ∧
    forward_selected dataC10a "y" [] 1 ["x1"] 2 = .model ["x1"] ∧
    forward_selected dataC10b "y" ["x1"] 1 ["x2"] 2 = .model ["x1"] ∧
    forward_selected dataC10b "y" [] 1 ["x1", "x2"] 2 = .model ["x2"] := by
  refine ⟨?_, ?_, ?_, ?_⟩
  · intro cfg fuel
    induction fuel with
    | zero =>
      intro s sel h
      exact absurd h (by rw [fsRun]; simp)
    | succ n ih =>
      intro s sel h
      rw [fsRun] at h
      by_cases hcond : s.remaining ≠ [] ∧ s.currentScore = s.bestNewScore ∧
          s.selected.length < cfg.maxvars
      · rw [if_pos hcond] at h
        cases hr : fsRound cfg s <;> rw [hr] at h
        · have hsel : RunOut.model _ = RunOut.model sel := h
          simp only [RunOut.model.injEq] at hsel
          exact ⟨[], by rw [← hsel, fsRound_halted_selected hr, List.append_nil]⟩
        · exact absurd h (by simp)
        · rename_i s'
          obtain ⟨t, ht⟩ := ih s' sel h
          rcases fsRound_next_cases hr with ⟨_, hsel⟩ | ⟨b, c, _, _, hcommit⟩
          · exact ⟨t, by rw [ht, hsel]⟩
          · obtain ⟨u, hu⟩ := commitWinner_selected_extends s b c
            refine ⟨u ++ t, ?_⟩
            rw [ht, hcommit, hu, List.append_assoc]
      · rw [if_neg hcond] at h
        simp only [RunOut.model.injEq] at h
        exact ⟨[], by rw [← h, List.append_nil]⟩
  · show fsRun cfgC10a 2 ⟨["x1"], [], 0, 0⟩ = .model ["x1"]
    have hfit : fitCandidate cfgC10a [] "x1" = .scored 1 := by
      have hX : xCand cfgC10a [] "x1" = [[1, -1, 0], [1, 1, 1]] := by decide
      have hp : pCand cfgC10a [] "x1" = 1 := by decide
      have hinv : invL (xtxL (xCand cfgC10a [] "x1")) = some [[1/2, 0], [0, 1/3]] := by
        rw [hX]
        norm_num [xtxL, dotL, invL, detL, detSized, minorL, rangeOne, rangeTwo]
      have hcfg : cfgC10a = ⟨dataC10a, 1, 3, [1, -1, 0], 0, 2⟩ := by
        have h : dfLookup dataC10a "y" = some [1, -1, 0] := by decide
        simp only [cfgC10a, mkConfig, h, Option.getD_some]
        norm_num [sumL]
      have hdof : ¬ ((cfgC10a.n : ℤ) - (pCand cfgC10a [] "x1" : ℤ) - 1 < 1) := by
        rw [hp, hcfg]
        norm_num
      rw [fitCandidate_of_inv_scored hinv hdof]
      simp only [CandOut.scored.injEq, scoreWithInv, betaWithInv, hX, hp]
      simp only [hcfg]
      norm_num [fittedCand, ssresOf, sumL, dotL, matVecL, rangeThree]
    have hscan : scanCandidates cfgC10a [] ["x1"] = .scores [(1, "x1")] := by
      simp [scanCandidates, hfit]
    have hround : fsRound cfgC10a ⟨["x1"], [], 0, 0⟩ = .next ⟨[], ["x1"], 1, 1⟩ := by
      rw [fsRound_scores hscan]
      decide
    have hm : cfgC10a.maxvars = 1 := by decide
    rw [fsRun]
    simp only [hround, hm]
    norm_num
    rw [fsRun]
    simp
  · show fsRun cfgC10b 2 ⟨["x2"], ["x1"], 0, 0⟩ = .model ["x1"]
    have hm : cfgC10b.maxvars = 1 := by decide
    rw [fsRun]
    simp [hm]
  · show fsRun cfgC10b 2 ⟨["x1", "x2"], [], 0, 0⟩ = .model ["x2"]
    have hskip : fitCandidate cfgC10b [] "x1" = .skip := by
      refine fitCandidate_of_inv_none (invL_of_det_eq_zero ?_)
      have hX : xCand cfgC10b [] "x1" = [[1, 1, 1], [1, 1, 1]] := by decide
      rw [hX]
      norm_num [xtxL, detL, detSized, dotL, rangeTwo]
    have hfit : fitCandidate cfgC10b [] "x2" = .scored 1 := by
      have hX : xCand cfgC10b [] "x2" = [[1, -1, 0], [1, 1, 1]] := by decide
      have hp : pCand cfgC10b [] "x2" = 1 := by decide
      have hinv : invL (xtxL (xCand cfgC10b [] "x2")) = some [[1/2, 0], [0, 1/3]] := by
        rw [hX]
        norm_num [xtxL, dotL, invL, detL, detSized, minorL, rangeOne, rangeTwo]
      have hcfg : cfgC10b = ⟨dataC10b, 1, 3, [1, -1, 0], 0, 2⟩ := by
        have h : dfLookup dataC10b "y" = some [1, -1, 0] := by decide
        simp only [cfgC10b, mkConfig, h, Option.getD_some]
        norm_num [sumL]
      have hdof : ¬ ((cfgC10b.n : ℤ) - (pCand cfgC10b [] "x2" : ℤ) - 1 < 1) := by
        rw [hp, hcfg]
        norm_num
      rw [fitCandidate_of_inv_scored hinv hdof]
      simp only [CandOut.scored.injEq, scoreWithInv, betaWithInv, hX, hp]
      simp only [hcfg]
      norm_num [fittedCand, ssresOf, sumL, dotL, matVecL, rangeThree]
    have hscan : scanCandidates cfgC10b [] ["x1", "x2"] = .scores [(1, "x2")] := by
      simp [scanCandidates, hskip, hfit]
    have hround : fsRound cfgC10b ⟨["x1", "x2"], [], 0, 0⟩ = .next ⟨["x1"], ["x2"], 1, 1⟩ := by
      rw [fsRound_scores hscan]
      decide
    have hm : cfgC10b.maxvars = 1 := by decide
    rw [fsRun]
    simp only [hround, hm]
    norm_num
    rw [fsRun]
    simp [hm]

/-- C10, witness: the extension property applied to the fresh-default run
on `dataC10b`. -/
theorem claim_C10_witness : ∃ t, ["x2"] = ([] : List String) ++ t :=
  claim_C10.1 cfgC10b 2 ⟨["x1", "x2"], [], 0, 0⟩ ["x2"] claim_C10.2.2.2

/-- Splitting a separator-free character list yields the single chunk. -/
theorem splitCharList_of_not_mem :
    ∀ (cs : List Char), '*' ∉ cs → splitCharList '*' cs = [cs]
  | [], _ => rfl
  | c :: cs, h => by
    have hc : ¬ c = '*' := fun hc => h (hc ▸ List.mem_cons_self c cs)
    have hcs : '*' ∉ cs := fun hm => h (List.mem_cons_of_mem c hm)
    rw [splitCharList]
    simp only [splitCharList_of_not_mem cs hcs, if_neg hc]

/-- Splitting after a separator-free prefix peels off that prefix. -/
theorem splitCharList_append :
    ∀ (p rest : List Char), '*' ∉ p →
      splitCharList '*' (p ++ '*' :: rest) = p :: splitCharList '*' rest
  | [], rest, _ => by
    rw [List.nil_append, splitCharList]
    simp
  | c :: p, rest, h => by
    have hc : ¬ c = '*' := fun hc => h (hc ▸ List.mem_cons_self c p)
    have hp : '*' ∉ p := fun hm => h (List.mem_cons_of_mem c hm)
    rw [List.cons_append, splitCharList]
    simp only [splitCharList_append p rest hp, if_neg hc]

/-- Joining then splitting star-free chunks is the identity. -/
theorem splitCharList_joinCharList :
    ∀ (parts : List (List Char)), (∀ p ∈ parts, '*' ∉ p) → parts ≠ [] →
      splitCharList '*' (joinCharList parts) = parts
  | [], _, hne => absurd rfl hne
  | [p], h, _ => by
    rw [joinCharList, splitCharList_of_not_mem p (h p (List.mem_singleton_self p))]
  | p :: q :: rest, h, _ => by
    rw [show joinCharList (p :: q :: rest) = p ++ '*' :: joinCharList (q :: rest) from rfl]
    rw [splitCharList_append p _ (h p (List.mem_cons_self _ _))]
    rw [splitCharList_joinCharList (q :: rest)
      (fun x hx => h x (List.mem_cons_of_mem p hx)) (List.cons_ne_nil q rest)]

theorem stringMk_toList (s : String) : String.mk s.toList = s := by
  obtain ⟨d⟩ := s
  rfl

/-- `hasStar` as non-membership of `'*'`. -/
theorem hasStar_eq_false_iff {s : String} : hasStar s = false ↔ '*' ∉ s.toList := by
  rw [hasStar, Bool.eq_false_iff]
  constructor
  · intro h hm
    exact h (List.elem_iff.mpr hm)
  · intro hm hc
    exact hm (List.elem_iff.mp hc)

/-- Joining then splitting star-free names is the identity. -/
theorem splitStar_joinStar (parts : List String)
    (h : ∀ p ∈ parts, hasStar p = false) (hne : parts ≠ []) :
    splitStar (joinStar parts) = parts := by
  rw [splitStar, joinStar]
  have htl : (String.mk (joinCharList (parts.map String.toList))).toList =
      joinCharList (parts.map String.toList) := rfl
  rw [htl, splitCharList_joinCharList (parts.map String.toList)
    (by
      intro p hp
      obtain ⟨q, hq, rfl⟩ := List.mem_map.mp hp
      exact hasStar_eq_false_iff.mp (h q hq))
    (by simpa using hne)]
  rw [List.map_map]
  refine List.map_congr_left ?_ |>.trans (List.map_id parts)
  intro q _
  exact stringMk_toList q

/-- A joined name of at least two chunks contains the separator. -/
theorem hasStar_joinStar (p q : String) (rest : List String) :
    hasStar (joinStar (p :: q :: rest)) = true := by
  rw [hasStar, joinStar]
  refine List.elem_iff.mpr ?_
  show '*' ∈ joinCharList ((p :: q :: rest).map String.toList)
  rw [show joinCharList ((p :: q :: rest).map String.toList) =
    p.toList ++ '*' :: joinCharList ((q :: rest).map String.toList) from rfl]
  exact List.mem_append_right _ (List.mem_cons_self _ _)

theorem joinStar_singleton (p : String) : joinStar [p] = p := by
  rw [joinStar, List.map_cons, List.map_nil, joinCharList, stringMk_toList]

/-- A star-free name splits to itself. -/
theorem splitStar_of_no_star {s : String} (h : hasStar s = false) : splitStar s = [s] := by
  rw [splitStar, splitCharList_of_not_mem _ (hasStar_eq_false_iff.mp h)]
  simp [stringMk_toList]

/-- Size-1 combinations are the singletons, in order. -/
theorem combinations_one : ∀ (l : List α), combinations 1 l = l.map (fun x => [x])
  | [] => rfl
  | x :: xs => by
    rw [show combinations 1 (x :: xs) =
      (combinations 0 xs).map (x :: ·) ++ combinations 1 xs from rfl]
    rw [combinations_one xs]
    simp [combinations]

/-- A combination is a sublist of the given length. -/
theorem mem_combinations :
    ∀ (l : List α) (k : Nat) (c : List α), c ∈ combinations k l →
      c.Sublist l ∧ c.length = k := by
  intro l
  induction l with
  | nil =>
    intro k c hc
    cases k with
    | zero =>
      simp only [combinations, List.mem_singleton] at hc
      subst hc
      exact ⟨List.nil_sublist _, rfl⟩
    | succ k => simp [combinations] at hc
  | cons x xs ih =>
    intro k c hc
    cases k with
    | zero =>
      simp only [combinations, List.mem_singleton] at hc
      subst hc
      exact ⟨List.nil_sublist _, rfl⟩
    | succ k =>
      rw [show combinations (k + 1) (x :: xs) =
        (combinations k xs).map (x :: ·) ++ combinations (k + 1) xs from rfl] at hc
      rcases List.mem_append.mp hc with h1 | h1
      · obtain ⟨c', hc', rfl⟩ := List.mem_map.mp h1
        obtain ⟨hs, hl⟩ := ih k c' hc'
        exact ⟨List.Sublist.cons₂ x hs, by simp [hl]⟩
      · obtain ⟨hs, hl⟩ := ih (k + 1) c h1
        exact ⟨List.Sublist.cons x hs, hl⟩

/-- Combinations of a duplicate-free list are pairwise distinct. -/
theorem nodup_combinations :
    ∀ (l : List α) (k : Nat), l.Nodup → (combinations k l).Nodup := by
  intro l
  induction l with
  | nil =>
    intro k _
    cases k <;> simp [combinations]
  | cons x xs ih =>
    intro k hnd
    obtain ⟨hx, hxs⟩ := List.nodup_cons.mp hnd
    cases k with
    | zero => simp [combinations]
    | succ k =>
      rw [show combinations (k + 1) (x :: xs) =
        (combinations k xs).map (x :: ·) ++ combinations (k + 1) xs from rfl]
      refine List.Nodup.append ?_ (ih (k + 1) hxs) ?_
      · exact (ih k hxs).map (fun a b h => by injection h)
      · intro a ha hb
        obtain ⟨c', _, rfl⟩ := List.mem_map.mp ha
        have hsub := (mem_combinations xs (k + 1) (x :: c') hb).1
        exact hx (hsub.subset (List.mem_cons_self x c'))

/-- Non-response column names are column names. -/
theorem mem_dfColumns_of_mem_dfDrop {df : DataFrame} {r nm : String}
    (h : nm ∈ dfColumns (dfDrop df r)) : nm ∈ dfColumns df :=
  ((List.filter_sublist df).map (·.1)).subset h

/-- Dropping a column preserves name distinctness. -/
theorem nodup_dfColumns_dfDrop {df : DataFrame} (hnd : (dfColumns df).Nodup) (r : String) :
    (dfColumns (dfDrop df r)).Nodup := by
  have hsub : (dfColumns (dfDrop df r)).Sublist (dfColumns df) := by
    unfold dfColumns dfDrop
    exact (List.filter_sublist df).map (fun p => p.1)
  exact hnd.sublist hsub

/-- Looking up a column present in `df` ignores appended columns. -/
theorem dfLookup_append {df extra : DataFrame} {nm : String} (h : nm ∈ dfColumns df) :
    dfLookup (df ++ extra) nm = dfLookup df nm := by
  rw [dfLookup, dfLookup, List.find?_append]
  obtain ⟨p, hp, hfst⟩ : ∃ p ∈ df, p.1 = nm := by
    obtain ⟨p, hp, rfl⟩ := List.mem_map.mp h
    exact ⟨p, hp, rfl⟩
  have hs : (df.find? (fun q => q.1 == nm)).isSome := by
    rw [List.find?_isSome]
    exact ⟨p, hp, by simp [hfst]⟩
  obtain ⟨v, hv⟩ := Option.isSome_iff_exists.mp hs
  rw [hv]
  rfl

/-- A present name has a column. -/
theorem dfLookup_isSome_of_mem {df : DataFrame} {nm : String} (h : nm ∈ dfColumns df) :
    ∃ colv, dfLookup df nm = some colv := by
  obtain ⟨p, hp, rfl⟩ := List.mem_map.mp h
  have hs : (df.find? (fun q => q.1 == p.1)).isSome := List.find?_isSome.mpr ⟨p, hp, by simp⟩
  obtain ⟨q, hq⟩ := Option.isSome_iff_exists.mp hs
  exact ⟨q.2, by rw [dfLookup, hq]; rfl⟩

/-- A successful lookup returns an actual column of the dataframe. -/
theorem dfLookup_eq_some_mem {df : DataFrame} {nm : String} {colv : Col}
    (h : dfLookup df nm = some colv) : (nm, colv) ∈ df := by
  rw [dfLookup] at h
  cases hq : df.find? (fun q => q.1 == nm) with
  | none => rw [hq] at h; simp at h
  | some q =>
    rw [hq] at h
    simp only [Option.map_some'] at h
    have hmem := List.mem_of_find?_eq_some hq
    have hpred := List.find?_some hq
    have hqe : q = (nm, colv) := Prod.ext (by simpa using hpred) (by simpa using h)
    rw [← hqe]
    exact hmem

/-- Reconstructing a list of length `n` by positionwise lookup. -/
theorem range_map_getD : ∀ (l : List ℚ), (List.range l.length).map (fun i => l.getD i 0) = l := by
  intro l
  refine List.ext_get (by simp) ?_
  intro i h1 h2
  simp only [List.get_eq_getElem, List.getElem_map, List.getElem_range]
  rw [List.getD_eq_getElem?_getD, List.getElem?_eq_getElem h2, Option.getD_some]

theorem dfFilter_singleton {df : DataFrame} {nm : String} {colv : Col}
    (h : dfLookup df nm = some colv) : dfFilter df [nm] = [(nm, colv)] := by
  simp [dfFilter, h]

theorem dfProductAxis1_singleton (nm : String) (colv : Col) (n : Nat) :
    dfProductAxis1 [(nm, colv)] n = (List.range n).map (fun r => colv.getD r 0) := by
  simp [dfProductAxis1]

theorem dfNRows_append {df extra : DataFrame} (h : df ≠ []) :
    dfNRows (df ++ extra) = dfNRows df := by
  cases df with
  | nil => exact absurd rfl h
  | cons p rest => rfl

/-- Overwriting a column with its own values is the identity. -/
theorem dfAssign_self {df : DataFrame} (hnd : (dfColumns df).Nodup) {nm : String} {colv : Col}
    (h : dfLookup df nm = some colv) : dfAssign df nm colv = df := by
  induction df with
  | nil => simp [dfLookup, List.find?] at h
  | cons p rest ih =>
    simp only [dfColumns, List.map_cons, List.nodup_cons] at hnd
    obtain ⟨hhead, htail⟩ := hnd
    rw [dfLookup] at h
    by_cases hp : (p.1 == nm) = true
    · rw [List.find?_cons_of_pos (p := fun q => q.1 == nm) rest hp] at h
      simp only [Option.map_some'] at h
      have hnm : p.1 = nm := by simpa using hp
      have hany : ((p :: rest).any (fun q => q.1 == nm)) = true := by
        simp [List.any_cons, hp]
      have hcol : p.2 = colv := by simpa using h
      rw [dfAssign, if_pos hany, List.map_cons, if_pos hp]
      congr 1
      · rw [← hnm, ← hcol]
      · refine (List.map_congr_left ?_).trans (List.map_id rest)
        intro q hq
        have hqf : (q.1 == nm) = false := by
          refine beq_false_of_ne ?_
          intro hqe
          exact hhead (List.mem_map.mpr ⟨q, hq, hqe.trans hnm.symm⟩)
        rw [if_neg (by simp [hqf])]
        rfl
    · rw [List.find?_cons_of_neg (p := fun q => q.1 == nm) rest hp] at h
      have ih' := ih htail h
      have hany_rest : rest.any (fun q => q.1 == nm) = true := by
        rw [List.any_eq_true]
        have hs : (rest.find? (fun q => q.1 == nm)).isSome := by
          cases hq : rest.find? (fun q => q.1 == nm) with
          | none => rw [hq] at h; simp at h
          | some q => simp
        obtain ⟨q, hq⟩ := Option.isSome_iff_exists.mp hs
        exact ⟨q, List.mem_of_find?_eq_some hq, List.find?_some (p := fun w : String × Col => w.1 == nm) hq⟩
      have hany : ((p :: rest).any (fun q => q.1 == nm)) = true := by
        simp [List.any_cons, hany_rest]
      rw [dfAssign, if_pos hany, List.map_cons, if_neg (by simp [hp])]
      rw [dfAssign, if_pos hany_rest] at ih'
      rw [ih']

theorem dfColumns_append (l1 l2 : DataFrame) :
    dfColumns (l1 ++ l2) = dfColumns l1 ++ dfColumns l2 :=
  List.map_append _ l1 l2

/-- Assigning a fresh name appends the column at the end. -/
theorem dfAssign_append_of_not_mem {l : DataFrame} {nm : String}
    (h : nm ∉ dfColumns l) (col : Col) : dfAssign l nm col = l ++ [(nm, col)] := by
  rw [dfAssign, if_neg]
  intro hany
  obtain ⟨q, hq, hqe⟩ := List.any_eq_true.mp hany
  exact h (List.mem_map.mpr ⟨q, hq, by simpa using hqe⟩)

/-- Rowwise values of a filtered dataframe, when every item is present. -/
theorem dfFilter_map_getD {df : DataFrame} :
    ∀ (bases : List String), (∀ b ∈ bases, b ∈ dfColumns df) → ∀ r : Nat,
      (dfFilter df bases).map (fun p => p.2.getD r 0) =
        bases.map (fun b => ((dfLookup df b).getD []).getD r 0) := by
  intro bases
  induction bases with
  | nil => intro _ _; rfl
  | cons b rest ih =>
    intro hmem r
    obtain ⟨colv, hc⟩ := dfLookup_isSome_of_mem (hmem b (List.mem_cons_self b rest))
    have hrest := ih (fun x hx => hmem x (List.mem_cons_of_mem b hx)) r
    rw [dfFilter] at hrest ⊢
    simp only [List.filterMap_cons, hc, Option.map_some', List.map_cons, hrest,
      Option.getD_some]

/-- The rowwise product of a filtered dataframe as a product of lookups. -/
theorem dfProductAxis1_eq {df : DataFrame} (bases : List String)
    (hmem : ∀ b ∈ bases, b ∈ dfColumns df) (n : Nat) :
    dfProductAxis1 (dfFilter df bases) n =
      (List.range n).map (fun r =>
        (bases.map (fun b => ((dfLookup df b).getD []).getD r 0)).foldl (· * ·) 1) := by
  rw [dfProductAxis1]
  refine List.map_congr_left ?_
  intro r _
  rw [dfFilter_map_getD bases hmem r]

/-- The degree-1 pass of `_gen_interaction_df` re-assigns every base
column its own values and leaves the dataframe unchanged. -/
theorem foldl_assign_size1 (df : DataFrame) (hnd : (dfColumns df).Nodup)
    (hlen : ∀ p ∈ df, p.2.length = dfNRows df) :
    ∀ (cols : List String), (∀ c0 ∈ cols, c0 ∈ dfColumns df ∧ hasStar c0 = false) →
      cols.foldl (fun acc nm =>
          dfAssign acc nm (dfProductAxis1 (dfFilter acc (splitStar nm)) (dfNRows acc))) df
        = df := by
  intro cols
  induction cols with
  | nil => intro _; rfl
  | cons c0 rest ih =>
    intro hmem
    obtain ⟨hc0, hc0star⟩ := hmem c0 (List.mem_cons_self c0 rest)
    obtain ⟨colv, hlook⟩ := dfLookup_isSome_of_mem hc0
    have hstep : dfAssign df c0 (dfProductAxis1 (dfFilter df (splitStar c0)) (dfNRows df))
        = df := by
      rw [splitStar_of_no_star hc0star, dfFilter_singleton hlook,
        dfProductAxis1_singleton]
      have hcl : colv.length = dfNRows df := hlen (c0, colv) (dfLookup_eq_some_mem hlook)
      rw [← hcl, range_map_getD colv]
      exact dfAssign_self hnd hlook
    rw [List.foldl_cons, hstep]
    exact ih (fun x hx => hmem x (List.mem_cons_of_mem c0 hx))

/-- The interaction pass of `_gen_interaction_df`: assigning a list of
fresh, star-containing names whose base features are columns of `df`
appends, in order, one product column per name. -/
theorem foldl_assign_fresh (df : DataFrame) (n : Nat) (hdf : df ≠ [])
    (hN : dfNRows df = n) :
    ∀ (names : List String) (extra : DataFrame),
      names.Nodup →
      (∀ nm ∈ names, ∀ b ∈ splitStar nm, b ∈ dfColumns df) →
      (∀ nm ∈ names, nm ∉ dfColumns df) →
      (∀ nm ∈ names, nm ∉ dfColumns extra) →
      (names.foldl (fun acc nm =>
          dfAssign acc nm (dfProductAxis1 (dfFilter acc (splitStar nm)) (dfNRows acc)))
        (df ++ extra)) =
      df ++ extra ++ names.map (fun nm => (nm,
        (List.range n).map (fun r =>
          ((splitStar nm).map (fun b => ((dfLookup df b).getD []).getD r 0)).foldl
            (· * ·) 1))) := by
  intro names
  induction names with
  | nil =>
    intro extra _ _ _ _
    simp
  | cons nm rest ih =>
    intro extra hnd hbase hndf hnextra
    obtain ⟨hnm_rest, hrest_nd⟩ := List.nodup_cons.mp hnd
    have hmem_app : ∀ b ∈ splitStar nm, b ∈ dfColumns (df ++ extra) := by
      intro b hb
      rw [dfColumns_append]
      exact List.mem_append_left _ (hbase nm (List.mem_cons_self nm rest) b hb)
    have hprod : dfProductAxis1 (dfFilter (df ++ extra) (splitStar nm))
        (dfNRows (df ++ extra)) =
        (List.range n).map (fun r =>
          ((splitStar nm).map (fun b => ((dfLookup df b).getD []).getD r 0)).foldl
            (· * ·) 1) := by
      rw [dfNRows_append hdf, hN, dfProductAxis1_eq (splitStar nm) hmem_app n]
      refine List.map_congr_left ?_
      intro r _
      congr 1
      refine List.map_congr_left ?_
      intro b hb
      rw [dfLookup_append (hbase nm (List.mem_cons_self nm rest) b hb)]
    have hfresh : nm ∉ dfColumns (df ++ extra) := by
      rw [dfColumns_append]
      intro hmem
      rcases List.mem_append.mp hmem with h1 | h1
      · exact hndf nm (List.mem_cons_self nm rest) h1
      · exact hnextra nm (List.mem_cons_self nm rest) h1
    rw [List.foldl_cons, hprod, dfAssign_append_of_not_mem hfresh]
    have hrec := ih (extra ++ [(nm, (List.range n).map (fun r =>
        ((splitStar nm).map (fun b => ((dfLookup df b).getD []).getD r 0)).foldl
          (· * ·) 1))])
      hrest_nd
      (fun x hx => hbase x (List.mem_cons_of_mem nm hx))
      (fun x hx => hndf x (List.mem_cons_of_mem nm hx))
      (by
        intro x hx hmem
        rw [dfColumns_append] at hmem
        rcases List.mem_append.mp hmem with h1 | h1
        · exact hnextra x (List.mem_cons_of_mem nm hx) h1
        · have : x = nm := by simpa [dfColumns] using h1
          exact hnm_rest (this ▸ hx))
    rw [← List.append_assoc df extra] at hrec
    rw [hrec]
    simp [List.append_assoc]

/-- C9.  `interaction_degree = 0` is falsy and skips expansion entirely.
For `interaction_degree = k > 0`, expansion runs to degree `k + 1`
(the off-by-one), producing `df` itself — every original column present
with unchanged values, in place — followed by exactly one new column per
combination of `2 .. k+1` distinct non-response columns, named by joining
the combination with `"*"`, whose value in each row is the product of the
combined columns' values.  (The degree-1 pass re-assigns each base column
its own values, so no duplicate columns arise, and the input dataframe is
never mutated: the embedding's assignments act on the `df.copy()`.) -/
theorem claim_C9 (df : DataFrame) (response : String) (k n : Nat)
    (hnd : (dfColumns df).Nodup)
    (hstar : ∀ nm ∈ dfColumns df, hasStar nm = false)
    (hresp : response ∈ dfColumns df)
    (hlen : ∀ p ∈ df, p.2.length = n) :
    gen_model_df df response 0 = df ∧
    (k ≠ 0 → gen_model_df df response k =
      df ++ ((List.range' 2 k).flatMap
          (fun i => combinations i (dfColumns (dfDrop df response)))).map
        (fun combo => (joinStar combo,
          (List.range n).map (fun r =>
            (combo.map (fun b => ((dfLookup df b).getD []).getD r 0)).foldl (· * ·) 1)))) := by
  have hdfne : df ≠ [] := by
    intro h
    rw [h] at hresp
    exact absurd hresp (List.not_mem_nil response)
  have hN : dfNRows df = n := by
    cases df with
    | nil => exact absurd rfl hdfne
    | cons p rest => exact hlen p (List.mem_cons_self p rest)
  have hcols_mem : ∀ c ∈ dfColumns (dfDrop df response), c ∈ dfColumns df :=
    fun c hc => mem_dfColumns_of_mem_dfDrop hc
  have hcols_star : ∀ c ∈ dfColumns (dfDrop df response), hasStar c = false :=
    fun c hc => hstar c (hcols_mem c hc)
  have hcols_nd : (dfColumns (dfDrop df response)).Nodup := nodup_dfColumns_dfDrop hnd response
  have hcombo_facts : ∀ i, 2 ≤ i →
      ∀ combo ∈ combinations i (dfColumns (dfDrop df response)),
        (∀ b ∈ combo, b ∈ dfColumns df ∧ hasStar b = false) ∧ combo ≠ [] ∧
          hasStar (joinStar combo) = true ∧ splitStar (joinStar combo) = combo := by
    intro i hi combo hc
    obtain ⟨hsub, hl⟩ := mem_combinations _ i combo hc
    have hmem : ∀ b ∈ combo, b ∈ dfColumns df ∧ hasStar b = false := by
      intro b hb
      have hbc := hsub.subset hb
      exact ⟨hcols_mem b hbc, hcols_star b hbc⟩
    have hne : combo ≠ [] := by
      intro h
      rw [h, List.length_nil] at hl
      omega
    have hstar2 : hasStar (joinStar combo) = true := by
      cases combo with
      | nil => rw [List.length_nil] at hl; omega
      | cons p t =>
        cases t with
        | nil => rw [List.length_singleton] at hl; omega
        | cons q t' => exact hasStar_joinStar p q t'
    exact ⟨hmem, hne, hstar2,
      splitStar_joinStar combo (fun p hp => (hmem p hp).2) hne⟩
  have hmem_range : ∀ i ∈ List.range' 2 k, 2 ≤ i := by
    intro i hi
    obtain ⟨j, _, rfl⟩ := List.mem_range'.mp hi
    omega
  constructor
  · simp [gen_model_df]
  · intro hk
    rw [gen_model_df, if_pos hk, gen_interaction_df]
    rw [List.range'_succ 1 k 1, List.flatMap_cons, List.foldl_append]
    have hF1 : (combinations 1 (dfColumns (dfDrop df response))).map joinStar =
        dfColumns (dfDrop df response) := by
      rw [combinations_one, List.map_map]
      refine (List.map_congr_left ?_).trans (List.map_id _)
      intro x _
      exact joinStar_singleton x
    rw [hF1, foldl_assign_size1 df hnd (fun p hp => (hlen p hp).trans hN.symm) _
      (fun c0 hc0 => ⟨hcols_mem c0 hc0, hcols_star c0 hc0⟩)]
    have hbignd : ((List.range' 2 k).flatMap
        (fun i => (combinations i (dfColumns (dfDrop df response))).map joinStar)).Nodup := by
      rw [List.nodup_flatMap]
      constructor
      · intro i hi
        refine List.Nodup.map_on ?_ (nodup_combinations _ i hcols_nd)
        intro c1 hc1 c2 hc2 hj
        have h1 := (hcombo_facts i (hmem_range i hi) c1 hc1).2.2.2
        have h2 := (hcombo_facts i (hmem_range i hi) c2 hc2).2.2.2
        rw [← h1, ← h2, hj]
      · refine List.Pairwise.imp_of_mem ?_ (List.pairwise_lt_range' 2 k 1)
        intro i j hi hj hij nm h1 h2
        obtain ⟨c1, hc1, rfl⟩ := List.mem_map.mp h1
        obtain ⟨c2, hc2, he⟩ := List.mem_map.mp h2
        obtain ⟨_, hl1⟩ := mem_combinations _ i c1 hc1
        obtain ⟨_, hl2⟩ := mem_combinations _ j c2 hc2
        have hr1 := (hcombo_facts i (hmem_range i hi) c1 hc1).2.2.2
        have hr2 := (hcombo_facts j (hmem_range j hj) c2 hc2).2.2.2
        have hc12 : c1 = c2 := by rw [← hr1, ← hr2, he]
        rw [← hl1, ← hl2, hc12] at hij
        exact absurd hij (lt_irrefl _)
    have hbigmem : ∀ nm ∈ (List.range' 2 k).flatMap
        (fun i => (combinations i (dfColumns (dfDrop df response))).map joinStar),
        ∃ i ∈ List.range' 2 k, ∃ combo ∈ combinations i (dfColumns (dfDrop df response)),
          nm = joinStar combo := by
      intro nm hnm
      obtain ⟨i, hi, hmi⟩ := List.mem_flatMap.mp hnm
      obtain ⟨combo, hcombo, rfl⟩ := List.mem_map.mp hmi
      exact ⟨i, hi, combo, hcombo, rfl⟩
    have hbig := foldl_assign_fresh df n hdfne hN
      ((List.range' 2 k).flatMap
        (fun i => (combinations i (dfColumns (dfDrop df response))).map joinStar))
      []
      hbignd
      (by
        intro nm hnm b hb
        obtain ⟨i, hi, combo, hcombo, rfl⟩ := hbigmem nm hnm
        have hfacts := hcombo_facts i (hmem_range i hi) combo hcombo
        rw [hfacts.2.2.2] at hb
        exact (hfacts.1 b hb).1)
      (by
        intro nm hnm hmem
        obtain ⟨i, hi, combo, hcombo, rfl⟩ := hbigmem nm hnm
        have hfacts := hcombo_facts i (hmem_range i hi) combo hcombo
        rw [hstar _ hmem] at hfacts
        exact absurd hfacts.2.2.1 (by simp))
      (by
        intro nm _ hmem
        simp [dfColumns] at hmem)
    rw [List.append_nil] at hbig
    rw [show (1 + 1) = 2 from rfl, hbig]
    congr 1
    rw [← List.map_flatMap joinStar (fun i => combinations i (dfColumns (dfDrop df response))),
      List.map_map]
    refine List.map_congr_left ?_
    intro combo hcombo
    obtain ⟨i, hi, hci⟩ := List.mem_flatMap.mp hcombo
    have hfacts := hcombo_facts i (hmem_range i hi) combo hci
    simp only [Function.comp_apply]
    rw [hfacts.2.2.2]

/-- C9, witness: the expansion theorem applied to a concrete three-column
dataframe with `interaction_degree = 1`. -/
theorem claim_C9_witness :
    gen_model_df [("y", [1, 2]), ("a", [3, 4]), ("b", [5, 6])] "y" 1 =
      [("y", [1, 2]), ("a", [3, 4]), ("b", [5, 6])] ++
        ((List.range' 2 1).flatMap
            (fun i => combinations i
              (dfColumns (dfDrop [("y", [1, 2]), ("a", [3, 4]), ("b", [5, 6])] "y")))).map
          (fun combo => (joinStar combo,
            (List.range 2).map (fun r =>
              (combo.map (fun b =>
                ((dfLookup [("y", [1, 2]), ("a", [3, 4]), ("b", [5, 6])] b).getD
                  []).getD r 0)).foldl (· * ·) 1))) :=
  (claim_C9 [("y", [1, 2]), ("a", [3, 4]), ("b", [5, 6])] "y" 1 2
    (by decide) (by decide) (by decide) (by decide)).2 (by decide)
